import Mathlib

/-!
# Verification of the pyxi structural binary codec

Shallow embedding of `pyxi.hpp`: the bit-stream transcoder
(`BytewiseSerializer` / `BytewiseDeserializer`), the byte sink/source
(`DynamicSerializer` / `BufferDeserializer`), the type-driven encoding
policies, and the `serialize` / `deserialize` entry points.

`size_t` is modelled as `Nat` with arithmetic reduced `% 2^64` exactly where
the C++ overflows; `uint8_t` likewise `% 2^8`.
-/

namespace Pyxi

/-- `pyxi::ByteOrder`. -/
inductive ByteOrder where
  | MsbFirst
  | LsbFirst
deriving DecidableEq, Repr

/-- Word size of the platform: `bitsize<size_t>::value` (64-bit platform). -/
def wordBits : Nat := 64

/-- Errors thrown by the codec (`std::invalid_argument` with three distinct
messages, and `std::out_of_range` from `BufferDeserializer::getByte`). -/
inductive Err where
  /-- "Attempting to invoke (de)serializer with bit size exceeding given type" -/
  | widthExceedsType
  /-- "Attempting to invoke (de)serializer with bit size exceeding platform support" -/
  | typeExceedsPlatform
  /-- "Attempting to invoke (de)serializer with no bits" -/
  | zeroBits
  /-- "Buffer deserializer out of range" -/
  | outOfRange
deriving DecidableEq, Repr

/-! ## BytewiseSerializer (with DynamicSerializer's byte sink)

State of a `DynamicSerializer`: the bit accumulator `byte_`, the count
`bitsSet_`, and the bytes pushed so far into the growable buffer. -/

structure EncState where
  byte : Nat
  bitsSet : Nat
  out : List Nat
deriving DecidableEq, Repr

/-- Fresh `DynamicSerializer`. -/
def EncState.init : EncState := ⟨0, 0, []⟩

/-- The loop body of `BytewiseSerializer::impl`, iterated `bits` times.
`data` is the (already pre-shifted, for MsbFirst) `size_t` operand. -/
def serLoop (order : ByteOrder) : Nat → Nat → EncState → EncState
  | 0, _, s => s
  | bits + 1, data, s =>
    let byteMask : Nat := if order = .MsbFirst then 0x01 else 0x80
    let dataMask : Nat := if order = .MsbFirst then 2 ^ 63 else 1
    -- if (data & dataMask) byte_ |= byteMask;
    let b1 : Nat := if data &&& dataMask ≠ 0 then s.byte ||| byteMask else s.byte
    -- if (++bitsSet_ == 8) { putByte(byte_); byte_ = 0; bitsSet_ = 0; }
    let s2 : EncState :=
      if s.bitsSet + 1 = 8 then ⟨0, 0, s.out ++ [b1]⟩ else ⟨b1, s.bitsSet + 1, s.out⟩
    -- byte_ <<= 1 / byte_ >>= 1 ; data <<= 1 / data >>= 1  (uint8_t / size_t)
    let s3 : EncState :=
      if order = .MsbFirst then ⟨(s2.byte <<< 1) % 2 ^ 8, s2.bitsSet, s2.out⟩
      else ⟨s2.byte >>> 1, s2.bitsSet, s2.out⟩
    let data' : Nat := if order = .MsbFirst then (data <<< 1) % 2 ^ 64 else data >>> 1
    serLoop order bits data' s3

/-- `BytewiseSerializer::impl(size_t data, size_t bits)`. -/
def serImpl (order : ByteOrder) (data bits : Nat) (s : EncState) : EncState :=
  let d : Nat := if order = .MsbFirst then (data <<< (wordBits - bits)) % 2 ^ 64 else data
  serLoop order bits d s

/-- Conversion of a C++ integer value (possibly negative) to `size_t`:
two's-complement modulo `2^64`.  This is the implicit conversion applied to
`data` at the `impl(data, bits)` call inside `Serializer::give`. -/
def toWord (v : Int) : Nat := (v % (2 ^ 64 : Int)).toNat

/-- `Serializer::give<T>(T data, size_t bits)` for a type `T` with
`sizeof(T) = szT` bytes (so `bitsize<T>::value = 8 * szT`). -/
def give (order : ByteOrder) (szT : Nat) (data : Int) (bits : Nat) (s : EncState) :
    Except Err EncState :=
  if bits > 8 * szT then .error .widthExceedsType
  else if szT > 8 then .error .typeExceedsPlatform
  else if bits = 0 then .error .zeroBits
  else .ok (serImpl order (toWord data) bits s)

/-- `BytewiseSerializer::flush()`. -/
def flush (s : EncState) : EncState :=
  if s.bitsSet ≠ 0 then ⟨0, 0, s.out ++ [s.byte]⟩ else s

/-! ## BytewiseDeserializer (with BufferDeserializer's byte source)

State: the current byte `byte_`, the count `bitsLeft_`, and the not yet
consumed suffix of the caller-supplied input buffer.  The C++ leaves `byte_`
uninitialized; it is overwritten before its value is ever used (the first
iteration has `bitsLeft_ == 0` and fetches), and we initialize it to `0`. -/

structure DecState where
  byte : Nat
  bitsLeft : Nat
  input : List Nat
deriving DecidableEq, Repr

/-- Fresh `BufferDeserializer` over a buffer. -/
def DecState.init (bytes : List Nat) : DecState := ⟨0, 0, bytes⟩

/-- `BufferDeserializer::getByte()`: throws `std::out_of_range` when the
remaining-length counter is zero, otherwise consumes exactly one byte of the
caller-supplied buffer. -/
def bufferGetByte : List Nat → Except Err (Nat × List Nat)
  | [] => .error .outOfRange
  | b :: rest => .ok (b, rest)

/-- The loop body of `BytewiseDeserializer::impl`, iterated `bits` times,
carrying `data` and `signMask`. -/
def desLoop (order : ByteOrder) : Nat → Nat → Nat → DecState → Except Err (Nat × Nat × DecState)
  | 0, data, signMask, s => .ok (data, signMask, s)
  | i + 1, data, signMask, s =>
    let byteMask : Nat := if order = .LsbFirst then 0x01 else 0x80
    let dataMask : Nat := if order = .LsbFirst then 2 ^ 63 else 1
    -- byte_ >>= 1; data >>= 1; signMask >>= 1;   (or <<= for MsbFirst)
    let byte1 : Nat := if order = .LsbFirst then s.byte >>> 1 else (s.byte <<< 1) % 2 ^ 8
    let data1 : Nat := if order = .LsbFirst then data >>> 1 else (data <<< 1) % 2 ^ 64
    let mask1 : Nat := if order = .LsbFirst then signMask >>> 1 else (signMask <<< 1) % 2 ^ 64
    -- if (bitsLeft_-- == 0) { byte_ = getByte(); bitsLeft_ = 7; }
    if s.bitsLeft = 0 then
      match bufferGetByte s.input with
      | .error e => .error e
      | .ok (b, rest) =>
        let data2 : Nat := if b &&& byteMask ≠ 0 then data1 ||| dataMask else data1
        desLoop order i data2 mask1 ⟨b, 7, rest⟩
    else
      let data2 : Nat := if byte1 &&& byteMask ≠ 0 then data1 ||| dataMask else data1
      desLoop order i data2 mask1 ⟨byte1, s.bitsLeft - 1, s.input⟩

/-- `BytewiseDeserializer::impl(size_t& data, size_t bits, bool signExtend)`
with the initial `data = 0` supplied by `Deserializer::take`. -/
def desImpl (order : ByteOrder) (bits : Nat) (signExtend : Bool) (s : DecState) :
    Except Err (Nat × DecState) := do
  let (d, m, s') ← desLoop order bits 0 (2 ^ 64 - 1) s
  let d1 : Nat := if order = .LsbFirst then d >>> (wordBits - bits) else d
  let m1 : Nat := if order = .LsbFirst then m ^^^ (2 ^ 64 - 1) else m
  let d2 : Nat := if signExtend then d1 ||| m1 else d1
  .ok (d2, s')

/-- `static_cast<T>(v)` for an integer type `T` of `szT` bytes, signed when
`sgn`: truncation to `8*szT` bits, reinterpreted by two's complement. -/
def castT (szT : Nat) (sgn : Bool) (v : Nat) : Int :=
  let r := v % 2 ^ (8 * szT)
  if sgn ∧ 2 ^ (8 * szT - 1) ≤ r then (r : Int) - 2 ^ (8 * szT) else (r : Int)

/-- `Deserializer::take<T>(size_t bits)` for integral `T` with `sizeof(T) = szT`
bytes, signed when `sgn` (which is what sets `signExtend`). -/
def take (order : ByteOrder) (szT : Nat) (sgn : Bool) (bits : Nat) (s : DecState) :
    Except Err (Int × DecState) :=
  if bits > 8 * szT then .error .widthExceedsType
  else if szT > 8 then .error .typeExceedsPlatform
  else if bits = 0 then .error .zeroBits
  else do
    let (v, s') ← desImpl order bits sgn s
    .ok (castT szT sgn v, s')

/-! ## The universe of supported types

A representative universe of the C++ types the policy resolver covers:
primitive integers (`is_integral`), enums (via their underlying integer),
16/32/64-bit floats (encoded by their bit pattern, which is exactly what the
`memcpy` through `floating_width_equivalent` does), resizable iterable
containers (`std::vector`-like, length-prefixed), fixed-arity iterables
(`std::array`-like), `Bits<T, Width>`, `Spare<Width>`, and standard-layout
composites with `member_count != 0` (hence a head field and a tail). -/

mutual
inductive Ty where
  | uint (w : Nat)
  | sint (w : Nat)
  | enum (sgn : Bool) (w : Nat)
  | float (w : Nat)
  | bits (sgn : Bool) (tw w : Nat)
  | spare (w : Nat)
  | vec (elem : Ty)
  | arr (elem : Ty) (n : Nat)
  | struct (f0 : Ty) (fs : TyList)
deriving DecidableEq, Repr

inductive TyList where
  | nil
  | cons (t : Ty) (ts : TyList)
deriving DecidableEq, Repr
end

mutual
inductive Val where
  | uint (w : Nat) (v : Nat)
  | sint (w : Nat) (v : Int)
  | enum (sgn : Bool) (w : Nat) (v : Int)
  | float (w : Nat) (pat : Nat)
  | bits (sgn : Bool) (tw w : Nat) (v : Int)
  | spare (w : Nat)
  | vec (elem : Ty) (es : ValList)
  | arr (elem : Ty) (es : ValList)
  | struct (f0 : Val) (fs : ValList)
deriving DecidableEq, Repr

inductive ValList where
  | nil
  | cons (v : Val) (vs : ValList)
deriving DecidableEq, Repr
end

def ValList.length : ValList → Nat
  | .nil => 0
  | .cons _ vs => vs.length + 1

mutual
/-- The static type of a value. -/
def tyOf : Val → Ty
  | .uint w _ => .uint w
  | .sint w _ => .sint w
  | .enum sgn w _ => .enum sgn w
  | .float w _ => .float w
  | .bits sgn tw w _ => .bits sgn tw w
  | .spare w => .spare w
  | .vec τ _ => .vec τ
  | .arr τ es => .arr τ es.length
  | .struct f0 fs => .struct (tyOf f0) (tyOfList fs)

def tyOfList : ValList → TyList
  | .nil => .nil
  | .cons v vs => .cons (tyOf v) (tyOfList vs)
end

mutual
/-- `Policy<T>::serialize(t, ser)` after resolution: the encoding side of the
policies of `pyxi.hpp`, dispatched on the (here explicit) type of the value.
The struct case is the member policy: it serializes each member in
declaration order through the member's own policy. -/
def serVal (order : ByteOrder) : Val → EncState → Except Err EncState
  | .uint w v, s => give order (w / 8) v w s
  | .sint w v, s => give order (w / 8) v w s
  | .enum _ w v, s => give order (w / 8) v w s
  | .float w p, s => give order (w / 8) p w s
  | .bits _ tw w v, s => give order (tw / 8) v w s
  | .spare w, s => give order 8 0 w s
  | .vec _ es, s => do
    let s1 ← give order 8 es.length 64 s
    serList order es s1
  | .arr _ es, s => serList order es s
  | .struct f0 fs, s => do
    let s1 ← serVal order f0 s
    serList order fs s1

def serList (order : ByteOrder) : ValList → EncState → Except Err EncState
  | .nil, s => .ok s
  | .cons v vs, s => do
    let s1 ← serVal order v s
    serList order vs s1
end

/-- Decode `n` successive values with the same element decoder: the loop of
the resizable-collection policy after `resize(size)` (and of the fixed-arity
policy). -/
def desCountV (f : DecState → Except Err (Val × DecState)) :
    Nat → DecState → Except Err (ValList × DecState)
  | 0, s => .ok (.nil, s)
  | n + 1, s => do
    let (v, s1) ← f s
    let (vs, s2) ← desCountV f n s1
    .ok (.cons v vs, s2)

mutual
/-- `Policy<T>::deserialize(t, des)` after resolution: the decoding side of
the policies, driven by the type.  The collection policy first decodes the
element count, resizes to it, then decodes the elements in place. -/
def desTy (order : ByteOrder) : Ty → DecState → Except Err (Val × DecState)
  | .uint w, s => do
    let (v, s') ← take order (w / 8) false w s
    .ok (.uint w v.toNat, s')
  | .sint w, s => do
    let (v, s') ← take order (w / 8) true w s
    .ok (.sint w v, s')
  | .enum sgn w, s => do
    let (v, s') ← take order (w / 8) sgn w s
    .ok (.enum sgn w v, s')
  | .float w, s => do
    let (v, s') ← take order (w / 8) false w s
    .ok (.float w v.toNat, s')
  | .bits sgn tw w, s => do
    let (v, s') ← take order (tw / 8) sgn w s
    .ok (.bits sgn tw w v, s')
  | .spare w, s => do
    let (_, s') ← take order 8 false w s
    .ok (.spare w, s')
  | .vec τ, s => do
    let (n, s1) ← take order 8 false 64 s
    let (es, s2) ← desCountV (desTy order τ) n.toNat s1
    .ok (.vec τ es, s2)
  | .arr τ n, s => do
    let (es, s') ← desCountV (desTy order τ) n s
    .ok (.arr τ es, s')
  | .struct t0 ts, s => do
    let (v, s1) ← desTy order t0 s
    let (vs, s2) ← desFields order ts s1
    .ok (.struct v vs, s2)

def desFields (order : ByteOrder) : TyList → DecState → Except Err (ValList × DecState)
  | .nil, s => .ok (.nil, s)
  | .cons t ts, s => do
    let (v, s1) ← desTy order t s
    let (vs, s2) ← desFields order ts s1
    .ok (.cons v vs, s2)
end

/-- `pyxi::serialize(t, byteOrder)`: fresh `DynamicSerializer`, `ser << t`,
`ser.flush()`, return the buffer. -/
def serialize (v : Val) (order : ByteOrder) : Except Err (List Nat) := do
  let s ← serVal order v .init
  .ok (flush s).out

/-- `pyxi::deserialize<T>(data, byteOrder)`: fresh `BufferDeserializer` over
the buffer, `des >> t`, return the decoded value. -/
def deserialize (τ : Ty) (bytes : List Nat) (order : ByteOrder) : Except Err Val := do
  let (v, _) ← desTy order τ (.init bytes)
  .ok v

/-! ## Well-formed values

Values that a C++ program can actually hold: integer widths are those of the
standard integer types, stored values are in range for their type (for
`Bits`, in range for the declared wire width), declared bit-field and spare
widths are at least 1 and at most the backing width, containers are shorter
than `2^64`, and every element of a container has the container's element
type. -/

/-- `w` is the bit width of a standard integer type. -/
def intW (w : Nat) : Prop := w = 8 ∨ w = 16 ∨ w = 32 ∨ w = 64

/-- The stored value is representable in `w` bits, two's complement when
signed. -/
def inRange (sgn : Bool) (w : Nat) (v : Int) : Prop :=
  if sgn then -(2 ^ (w - 1) : Int) ≤ v ∧ v < 2 ^ (w - 1) else 0 ≤ v ∧ v < 2 ^ w

/-- `n` copies of the element type: the member types of a homogeneous
container. -/
def repTyList (τ : Ty) : Nat → TyList
  | 0 => .nil
  | n + 1 => .cons τ (repTyList τ n)

mutual
def wfVal : Val → Prop
  | .uint w v => intW w ∧ v < 2 ^ w
  | .sint w v => intW w ∧ inRange true w v
  | .enum sgn w v => intW w ∧ inRange sgn w v
  | .float w p => (w = 16 ∨ w = 32 ∨ w = 64) ∧ p < 2 ^ w
  | .bits sgn tw w v => intW tw ∧ 1 ≤ w ∧ w ≤ tw ∧ inRange sgn w v
  | .spare w => 1 ≤ w ∧ w ≤ 64
  | .vec τ es => es.length < 2 ^ 64 ∧ wfList es ∧ tyOfList es = repTyList τ es.length
  | .arr τ es => wfList es ∧ tyOfList es = repTyList τ es.length
  | .struct f0 fs => wfVal f0 ∧ wfList fs

def wfList : ValList → Prop
  | .nil => True
  | .cons v vs => wfVal v ∧ wfList vs
end

/-! ## Structural decomposition

`member_offsets<T>` replays aggregate initialization with instrumented
placeholders; each placeholder rounds the running byte cursor up to the
field's natural alignment, records it, and advances by the field's size.  A
field is modelled by its `(sizeof, alignof)` pair.  `member_count<T>`'s
SFINAE probe counts the aggregate's fields; its result on a plain composite
is the number of fields. -/

/-- `detail::atom_offset_binder::operator T()` folded over the fields. -/
def memberOffsets (fields : List (Nat × Nat)) : List Nat :=
  (fields.foldl
    (fun (acc : Nat × List Nat) f =>
      let base := (acc.1 + f.2 - 1) / f.2 * f.2
      (base + f.1, acc.2 ++ [base]))
    (0, [])).2

/-- `member_count<T>::value` for a plain standard-layout composite: the
number of fields found by the initialization probe. -/
def memberCount (fields : List (Nat × Nat)) : Nat := fields.length

/-! ## Auxiliary notions for the stated properties -/

/-- Pull `n` bytes in sequence through `BufferDeserializer::getByte`. -/
def pullN : Nat → List Nat → Except Err (List Nat)
  | 0, l => .ok l
  | n + 1, l =>
    match bufferGetByte l with
    | .error e => .error e
    | .ok (_, rest) => pullN n rest

/-- Encoder states that actually occur: reachable from a fresh
`DynamicSerializer` by successful `give` calls and by `flush`. -/
inductive Reachable (order : ByteOrder) : EncState → Prop
  | init : Reachable order .init
  | give (szT : Nat) (data : Int) (bits : Nat) {s s' : EncState} :
      Reachable order s → give order szT data bits s = .ok s' → Reachable order s'
  | flush {s : EncState} : Reachable order s → Reachable order (flush s)

/-- All bit positions of the accumulator outside the window the pending bits
occupy hold zero.  For `MsbFirst` the `k` pending bits sit at positions
`k..1`; for `LsbFirst` at positions `7-k..6`. -/
def accumZeroPadded (order : ByteOrder) (s : EncState) : Prop :=
  match order with
  | .MsbFirst => s.byte % 2 = 0 ∧ s.byte < 2 ^ (s.bitsSet + 1)
  | .LsbFirst => s.byte % 2 ^ (7 - s.bitsSet) = 0 ∧ s.byte < 2 ^ 7

/-- The accumulator invariant of `BytewiseSerializer`. -/
def accumOk (order : ByteOrder) (s : EncState) : Prop :=
  s.bitsSet < 8 ∧ accumZeroPadded order s

/-- The state part of one iteration of `BytewiseSerializer::impl`'s loop;
`cond` is the tested data bit (`data & dataMask`). -/
def encStep (order : ByteOrder) (cond : Prop) [Decidable cond] (s : EncState) : EncState :=
  let byteMask : Nat := if order = .MsbFirst then 0x01 else 0x80
  let b1 : Nat := if cond then s.byte ||| byteMask else s.byte
  let s2 : EncState :=
    if s.bitsSet + 1 = 8 then ⟨0, 0, s.out ++ [b1]⟩ else ⟨b1, s.bitsSet + 1, s.out⟩
  if order = .MsbFirst then ⟨(s2.byte <<< 1) % 2 ^ 8, s2.bitsSet, s2.out⟩
  else ⟨s2.byte >>> 1, s2.bitsSet, s2.out⟩

/-! ## Bit-level abstraction

The transcoder is a bit-stream machine; these notions name the bit sequence
a state has produced (encoder) or can still deliver (decoder), in the order
the bits travel. -/

/-- The low `n` bits of `d`, least significant first. -/
def natBits : Nat → Nat → List Bool
  | _, 0 => []
  | d, n + 1 => decide (d % 2 = 1) :: natBits (d / 2) n

/-- Value of a bit list, least significant bit first. -/
def bitsVal : List Bool → Nat
  | [] => 0
  | b :: t => (if b then 1 else 0) + 2 * bitsVal t

/-- Value of a bit list, most significant bit first. -/
def bitsValM : List Bool → Nat
  | [] => 0
  | b :: t => (if b then 1 else 0) * 2 ^ t.length + bitsValM t

/-- The bit sequence, in stream order, that `impl(data, bits)` pushes:
least-significant-first for `LsbFirst`, most-significant-first for
`MsbFirst`. -/
def giveBits (order : ByteOrder) (d n : Nat) : List Bool :=
  match order with
  | .LsbFirst => natBits d n
  | .MsbFirst => (natBits d n).reverse

/-- The 8 bits of a stream byte in the order the transcoder travels them. -/
def byteBits (order : ByteOrder) (b : Nat) : List Bool := giveBits order b 8

/-- All bits of a byte sequence in stream order. -/
def unpack (order : ByteOrder) : List Nat → List Bool
  | [] => []
  | b :: rest => byteBits order b ++ unpack order rest

/-- The pending bits held in the encoder accumulator, in stream order. -/
def pendingBits (order : ByteOrder) (s : EncState) : List Bool :=
  match order with
  | .MsbFirst => (natBits (s.byte >>> 1) s.bitsSet).reverse
  | .LsbFirst => natBits (s.byte >>> (7 - s.bitsSet)) s.bitsSet

/-- The bit stream the encoder has produced so far. -/
def encStream (order : ByteOrder) (s : EncState) : List Bool :=
  unpack order s.out ++ pendingBits order s

/-- The unread bits of the decoder's current byte, in stream order. -/
def decPending (order : ByteOrder) (s : DecState) : List Bool :=
  match order with
  | .LsbFirst => natBits (s.byte >>> 1) s.bitsLeft
  | .MsbFirst => (natBits (((s.byte <<< 1) % 2 ^ 8) >>> (8 - s.bitsLeft)) s.bitsLeft).reverse

/-- The bits still available to the decoder. -/
def remBits (order : ByteOrder) (s : DecState) : List Bool :=
  decPending order s ++ unpack order s.input

/-- One `data`-register update of the decoder loop. -/
def pushBit (order : ByteOrder) (acc : Nat) (c : Bool) : Nat :=
  match order with
  | .LsbFirst => if c then acc >>> 1 ||| 2 ^ 63 else acc >>> 1
  | .MsbFirst => if c then (acc <<< 1) % 2 ^ 64 ||| 1 else (acc <<< 1) % 2 ^ 64

/-- The `data` register after absorbing a bit sequence. -/
def pushBits (order : ByteOrder) : Nat → List Bool → Nat :=
  List.foldl (pushBit order)

/-- One `signMask` shift of the decoder loop. -/
def shift1 (order : ByteOrder) (m : Nat) : Nat :=
  match order with
  | .LsbFirst => m >>> 1
  | .MsbFirst => (m <<< 1) % 2 ^ 64

/-- The `signMask` register after `n` iterations. -/
def shiftN (order : ByteOrder) : Nat → Nat → Nat
  | m, 0 => m
  | m, n + 1 => shiftN order (shift1 order m) n

/-- The data bits the encoder loop tests, in test order (MsbFirst: top bit
of the pre-shifted word, word shifted left each step). -/
def dataBitsM : Nat → Nat → List Bool
  | _, 0 => []
  | d, n + 1 => decide (d &&& 2 ^ 63 ≠ 0) :: dataBitsM ((d <<< 1) % 2 ^ 64) n

/-- The data bits the encoder loop tests, LsbFirst flavor. -/
def dataBitsL : Nat → Nat → List Bool
  | _, 0 => []
  | d, n + 1 => decide (d &&& 1 ≠ 0) :: dataBitsL (d >>> 1) n

/-- The data bits the encoder loop tests for either order. -/
def dataBits (order : ByteOrder) (d n : Nat) : List Bool :=
  match order with
  | .MsbFirst => dataBitsM d n
  | .LsbFirst => dataBitsL d n

mutual
/-- The intended wire bits of a value: the concatenation, in stream order,
of the bits every `give` call of its policy pushes. -/
def valBits (order : ByteOrder) : Val → List Bool
  | .uint w v => giveBits order (toWord v) w
  | .sint w v => giveBits order (toWord v) w
  | .enum _ w v => giveBits order (toWord v) w
  | .float w p => giveBits order (toWord p) w
  | .bits _ _ w v => giveBits order (toWord v) w
  | .spare w => giveBits order 0 w
  | .vec _ es => giveBits order (toWord es.length) 64 ++ valListBits order es
  | .arr _ es => valListBits order es
  | .struct f0 fs => valBits order f0 ++ valListBits order fs

def valListBits (order : ByteOrder) : ValList → List Bool
  | .nil => []
  | .cons v vs => valBits order v ++ valListBits order vs
end

mutual
/-- Types whose decode consumes a type-determined number of bits
(no length-prefixed container inside). -/
def tyFixed : Ty → Prop
  | .uint _ => True
  | .sint _ => True
  | .enum _ _ => True
  | .float _ => True
  | .bits _ _ _ => True
  | .spare _ => True
  | .vec _ => False
  | .arr τ _ => tyFixed τ
  | .struct f0 fs => tyFixed f0 ∧ tyFixedList fs

def tyFixedList : TyList → Prop
  | .nil => True
  | .cons t ts => tyFixed t ∧ tyFixedList ts
end

mutual
/-- The wire width of a fixed-width type. -/
def tyWidth : Ty → Nat
  | .uint w => w
  | .sint w => w
  | .enum _ w => w
  | .float w => w
  | .bits _ _ w => w
  | .spare w => w
  | .vec _ => 0
  | .arr τ n => n * tyWidth τ
  | .struct f0 fs => tyWidth f0 + tyWidthList fs

def tyWidthList : TyList → Nat
  | .nil => 0
  | .cons t ts => tyWidth t + tyWidthList ts
end

mutual
/-- The width validation of every `give`/`take` a type's policy issues
passes. -/
def wfTy : Ty → Prop
  | .uint w => intW w
  | .sint w => intW w
  | .enum _ w => intW w
  | .float w => w = 16 ∨ w = 32 ∨ w = 64
  | .bits _ tw w => intW tw ∧ 1 ≤ w ∧ w ≤ tw
  | .spare w => 1 ≤ w ∧ w ≤ 64
  | .vec τ => wfTy τ
  | .arr τ _ => wfTy τ
  | .struct f0 fs => wfTy f0 ∧ wfTyList fs

def wfTyList : TyList → Prop
  | .nil => True
  | .cons t ts => wfTy t ∧ wfTyList ts
end

/-- Extending the decoder's caller-supplied buffer with surplus bytes. -/
def DecState.addInput (s : DecState) (e : List Nat) : DecState :=
  ⟨s.byte, s.bitsLeft, s.input ++ e⟩

/-- The flush-displaced shape of an unaligned encoder output: the aligned
prefix of the true bits, then the zero padding, then the displaced tail and
the final shifted-in zero (`byteBits_flush`).  `r` is the number of true
bits in the final partial byte. -/
def corrupt (r : Nat) (X : List Bool) : List Bool :=
  X.take (X.length - r)
    ++ (List.replicate (7 - r) false ++ (X.drop (X.length - r) ++ [false]))

/-- The decoder's remaining bits against the true remaining bits `X`: either
the stream was byte-aligned and carries `X` exactly, or the last `r` bits sit
flush-displaced in the final byte. -/
def Shaped (r : Nat) (X rem : List Bool) : Prop :=
  (r = 0 ∧ rem = X) ∨ (0 < r ∧ r < 8 ∧ r ≤ X.length ∧ rem = corrupt r X)

mutual
/-- Types whose decode always succeeds consuming exactly `tyWidth` bits, on
any stream content: every width validation passes and no length-prefixed
container is reachable (an empty fixed-arity container never visits its
element type). -/
def fixedOk : Ty → Prop
  | .uint w => intW w
  | .sint w => intW w
  | .enum _ w => intW w
  | .float w => w = 16 ∨ w = 32 ∨ w = 64
  | .bits _ tw w => intW tw ∧ 1 ≤ w ∧ w ≤ tw
  | .spare w => 1 ≤ w ∧ w ≤ 64
  | .vec _ => False
  | .arr τ n => n = 0 ∨ fixedOk τ
  | .struct f0 fs => fixedOk f0 ∧ fixedOkList fs

def fixedOkList : TyList → Prop
  | .nil => True
  | .cons t ts => fixedOk t ∧ fixedOkList ts
end

/-! ## Theorems -/

/-- Pulling exactly as many bytes as the buffer holds succeeds and exhausts
it. -/
theorem pullN_length_ok : ∀ l : List Nat, pullN l.length l = .ok [] := by
  intro l
  induction l with
  | nil => rfl
  | cons b rest ih => simpa [pullN, bufferGetByte] using ih

/-- Pulling one byte more than the buffer holds is an out-of-range error. -/
theorem pullN_past_end : ∀ l : List Nat, pullN (l.length + 1) l = .error .outOfRange := by
  intro l
  induction l with
  | nil => rfl
  | cons b rest ih => simpa [pullN, bufferGetByte] using ih

/-- C6: for every decode over a caller-supplied input of `N` bytes, every
attempt to pull an `(N+1)`-th byte raises the out-of-range failure (never a
zero byte); in particular decoding a 4-byte integer from a 3-byte input
fails with this error. -/
theorem c6_buffer_exhaustion :
    (∀ bytes : List Nat,
        pullN bytes.length bytes = .ok [] ∧
        pullN (bytes.length + 1) bytes = .error .outOfRange) ∧
    deserialize (Ty.uint 32) [0x12, 0x34, 0x56] .MsbFirst = .error .outOfRange :=
  ⟨fun bytes => ⟨pullN_length_ok bytes, pullN_past_end bytes⟩, rfl⟩

/-- C4: a composite of one 4-bit padding field followed by two 2-bit
bit-fields valued 1 and 2, serialized least-significant-first, produces
exactly the single byte `0b10010000`. -/
theorem c4_bit_packed_struct :
    serialize
      (Val.struct (.spare 4) (.cons (.bits false 8 2 1) (.cons (.bits false 8 2 2) .nil)))
      .LsbFirst = .ok [0b10010000] := rfl

/-- C8: the structural decomposition of a composite with fields
`(uint32, bool, char)` — sizes and alignments `(4,4), (1,1), (1,1)` —
reports field count 3 and byte offsets 0, 4, 5. -/
theorem c8_member_count_offsets :
    memberCount [(4, 4), (1, 1), (1, 1)] = 3 ∧
    memberOffsets [(4, 4), (1, 1), (1, 1)] = [0, 4, 5] := ⟨rfl, rfl⟩

/-- C9: `serialize` is deterministic — equal values under the same byte
order give identical byte sequences. -/
theorem c9_serialize_deterministic (v w : Val) (order : ByteOrder) (h : v = w) :
    serialize v order = serialize w order := by rw [h]

/-- Witness for `c9_serialize_deterministic` at a concrete value. -/
theorem c9_serialize_deterministic_witness :
    serialize (Val.uint 8 5) .MsbFirst = serialize (Val.uint 8 5) .MsbFirst ∧
    serialize (Val.uint 8 5) .MsbFirst = .ok [5] :=
  ⟨c9_serialize_deterministic _ _ _ rfl, rfl⟩

/-- C1 fails on the code: serializing the bit-field value `Bits<uint8_t,4>`
holding 15 and deserializing the produced byte under the same (MsbFirst)
order yields 1, not 15.  The flushed partial byte holds its bits one
position left of where the decoder reads them. -/
theorem c1_roundtrip_fails :
    serialize (Val.bits false 8 4 15) .MsbFirst = .ok [0x1E] ∧
    deserialize (Ty.bits false 8 4) [0x1E] .MsbFirst = .ok (Val.bits false 8 4 1) ∧
    Val.bits false 8 4 1 ≠ Val.bits false 8 4 15 :=
  ⟨rfl, rfl, by decide⟩

/-- C2 fails on the code: `take<int8_t>(5)` under MsbFirst on transferred
bits `00101` (top bit 0) returns −27 instead of the zero-extended 5, and
under LsbFirst on transferred bits `10000` (top bit 1) returns 16 instead
of the sign-extended −16. -/
theorem c2_sign_extension_diverges :
    take .MsbFirst 1 true 5 (.init [0b00101000]) = .ok (-27, ⟨0x80, 3, []⟩) ∧
    take .LsbFirst 1 true 5 (.init [0b00010000]) = .ok (16, ⟨0x01, 3, []⟩) :=
  ⟨rfl, rfl⟩

/-- A failing `desLoop` can only fail with the buffer-exhaustion error. -/
theorem desLoop_error_eq (order : ByteOrder) :
    ∀ bits data mask s e, desLoop order bits data mask s = .error e → e = .outOfRange := by
  intro bits
  induction bits with
  | zero => intro data mask s e h; exact absurd h (by simp [desLoop])
  | succ i ih =>
    intro data mask s e h
    rw [desLoop] at h
    by_cases hbl : s.bitsLeft = 0
    · rw [if_pos hbl] at h
      cases hin : s.input with
      | nil => simp [hin, bufferGetByte] at h; exact h.symm
      | cons b rest => rw [hin] at h; exact ih _ _ _ _ h
    · rw [if_neg hbl] at h
      exact ih _ _ _ _ h

/-- A failing `desImpl` can only fail with the buffer-exhaustion error. -/
theorem desImpl_error_eq (order : ByteOrder) (bits : Nat) (sgn : Bool) (s : DecState)
    (e : Err) (h : desImpl order bits sgn s = .error e) : e = .outOfRange := by
  unfold desImpl at h
  cases hl : desLoop order bits 0 (2 ^ 64 - 1) s with
  | error e' =>
    rw [hl] at h
    cases h
    exact desLoop_error_eq order _ _ _ _ _ hl
  | ok t => rw [hl] at h; cases h

/-- C5: the width validation of `Serializer::give` and
`Deserializer::take`.  Each of the three invalid conditions — width
exceeding the destination type, type wider than the platform word, zero
width — raises its own distinct error and transfers nothing; valid requests
raise none of them. -/
theorem c5_width_validation (order : ByteOrder) (szT : Nat) (d : Int) (sgn : Bool)
    (bits : Nat) (s : EncState) (sd : DecState) :
    (8 * szT < bits →
      give order szT d bits s = .error .widthExceedsType ∧
      take order szT sgn bits sd = .error .widthExceedsType) ∧
    (bits ≤ 8 * szT → 8 < szT →
      give order szT d bits s = .error .typeExceedsPlatform ∧
      take order szT sgn bits sd = .error .typeExceedsPlatform) ∧
    (bits ≤ 8 * szT → szT ≤ 8 → bits = 0 →
      give order szT d bits s = .error .zeroBits ∧
      take order szT sgn bits sd = .error .zeroBits) ∧
    (bits ≤ 8 * szT → szT ≤ 8 → bits ≠ 0 →
      give order szT d bits s = .ok (serImpl order (toWord d) bits s) ∧
      ∀ e, take order szT sgn bits sd = .error e → e = .outOfRange) ∧
    (Err.widthExceedsType ≠ Err.typeExceedsPlatform ∧
      Err.widthExceedsType ≠ Err.zeroBits ∧
      Err.typeExceedsPlatform ≠ Err.zeroBits) := by
  refine ⟨fun h1 => ?_, fun h1 h2 => ?_, fun h1 h2 h3 => ?_, fun h1 h2 h3 => ?_,
    by decide, by decide, by decide⟩
  · exact ⟨by unfold give; rw [if_pos (by omega)], by unfold take; rw [if_pos (by omega)]⟩
  · exact ⟨by unfold give; rw [if_neg (by omega), if_pos (by omega)],
      by unfold take; rw [if_neg (by omega), if_pos (by omega)]⟩
  · exact ⟨by unfold give; rw [if_neg (by omega), if_neg (by omega), if_pos h3],
      by unfold take; rw [if_neg (by omega), if_neg (by omega), if_pos h3]⟩
  · constructor
    · unfold give; rw [if_neg (by omega), if_neg (by omega), if_neg h3]
    · intro e he
      unfold take at he
      rw [if_neg (by omega), if_neg (by omega), if_neg h3] at he
      cases hd : desImpl order bits sgn sd with
      | error e' =>
        rw [hd] at he
        cases he
        exact desImpl_error_eq order bits sgn sd _ hd
      | ok t => rw [hd] at he; cases he

set_option maxRecDepth 20000 in
/-- Byte-level step facts for the MsbFirst accumulator: inserting a bit at
position 0 and shifting left preserves evenness and the window bound. -/
theorem msbStepOr : ∀ b < 256, ∀ k < 7, b % 2 = 0 → b < 2 ^ (k + 1) →
    (((b ||| 1) <<< 1) % 2 ^ 8) % 2 = 0 ∧ ((b ||| 1) <<< 1) % 2 ^ 8 < 2 ^ (k + 2) := by
  decide

set_option maxRecDepth 20000 in
theorem msbStepNo : ∀ b < 256, ∀ k < 7, b % 2 = 0 → b < 2 ^ (k + 1) →
    ((b <<< 1) % 2 ^ 8) % 2 = 0 ∧ (b <<< 1) % 2 ^ 8 < 2 ^ (k + 2) := by
  decide

set_option maxRecDepth 20000 in
/-- Byte-level step facts for the LsbFirst accumulator: inserting a bit at
position 7 and shifting right preserves the zero low window and the bound. -/
theorem lsbStepOr : ∀ b < 256, ∀ k < 7, b % 2 ^ (7 - k) = 0 → b < 2 ^ 7 →
    ((b ||| 128) >>> 1) % 2 ^ (7 - (k + 1)) = 0 ∧ (b ||| 128) >>> 1 < 2 ^ 7 := by
  decide

set_option maxRecDepth 20000 in
theorem lsbStepNo : ∀ b < 256, ∀ k < 7, b % 2 ^ (7 - k) = 0 → b < 2 ^ 7 →
    (b >>> 1) % 2 ^ (7 - (k + 1)) = 0 ∧ b >>> 1 < 2 ^ 7 := by
  decide

/-- An empty accumulator satisfies the invariant. -/
theorem accumOk_empty (order : ByteOrder) (out : List Nat) :
    accumOk order ⟨0, 0, out⟩ := by
  cases order <;> exact ⟨by norm_num, by norm_num, by norm_num⟩

/-- One loop iteration of `serLoop` is an `encStep` on the state and a shift
of the data word. -/
theorem serLoop_succ_eq (order : ByteOrder) (n data : Nat) (s : EncState) :
    serLoop order (n + 1) data s =
      serLoop order n (if order = .MsbFirst then (data <<< 1) % 2 ^ 64 else data >>> 1)
        (encStep order (data &&& (if order = .MsbFirst then 2 ^ 63 else 1) ≠ 0) s) := rfl

/-- One iteration of the transcoder loop preserves the accumulator
invariant; `cond` is the tested data bit. -/
theorem accumOk_step (order : ByteOrder) (cond : Prop) [Decidable cond] (s : EncState)
    (h : accumOk order s) :
    accumOk order (encStep order cond s) := by
  unfold encStep
  obtain ⟨b, k, out⟩ := s
  obtain ⟨hk8, hpad⟩ := h
  have hk8' : k < 8 := hk8
  by_cases hk : k + 1 = 8
  · cases order <;>
      simp only [accumOk, accumZeroPadded, hk, reduceIte, if_pos, if_true] <;>
      exact ⟨by norm_num, by norm_num, by norm_num⟩
  · cases order with
    | MsbFirst =>
      simp only [accumZeroPadded] at hpad
      obtain ⟨hb2, hblt⟩ := hpad
      have hb256 : b < 256 := by
        calc b < 2 ^ (k + 1) := hblt
          _ ≤ 2 ^ 8 := Nat.pow_le_pow_right (by norm_num) (by omega)
          _ = 256 := by norm_num
      simp only [accumOk, accumZeroPadded, reduceIte, if_neg hk]
      by_cases hc : cond
      · simp only [if_pos hc]
        have hf := msbStepOr b hb256 k (by omega) hb2 hblt
        exact ⟨show k + 1 < 8 by omega, hf.1, hf.2⟩
      · simp only [if_neg hc]
        have hf := msbStepNo b hb256 k (by omega) hb2 hblt
        exact ⟨show k + 1 < 8 by omega, hf.1, hf.2⟩
    | LsbFirst =>
      simp only [accumZeroPadded] at hpad
      obtain ⟨hb0, hblt⟩ := hpad
      have hb256 : b < 256 := lt_trans hblt (by norm_num)
      simp only [accumOk, accumZeroPadded, reduceIte, if_neg hk]
      by_cases hc : cond
      · simp only [if_pos hc]
        have hf := lsbStepOr b hb256 k (by omega) hb0 hblt
        exact ⟨show k + 1 < 8 by omega, hf.1, hf.2⟩
      · simp only [if_neg hc]
        have hf := lsbStepNo b hb256 k (by omega) hb0 hblt
        exact ⟨show k + 1 < 8 by omega, hf.1, hf.2⟩

/-- The transcoder loop preserves the accumulator invariant. -/
theorem serLoop_accumOk (order : ByteOrder) :
    ∀ bits data s, accumOk order s → accumOk order (serLoop order bits data s) := by
  intro bits
  induction bits with
  | zero => intro data s h; exact h
  | succ n ih =>
    intro data s h
    rw [serLoop_succ_eq]
    exact ih _ _ (accumOk_step order _ s h)

/-- `flush` preserves the accumulator invariant. -/
theorem flush_accumOk (order : ByteOrder) (s : EncState) (h : accumOk order s) :
    accumOk order (flush s) := by
  unfold flush
  split_ifs
  · exact accumOk_empty order _
  · exact h

/-- Every reachable encoder state satisfies the accumulator invariant. -/
theorem reachable_accumOk (order : ByteOrder) (s : EncState) (h : Reachable order s) :
    accumOk order s := by
  induction h with
  | init => exact accumOk_empty order []
  | @give szT data bits s₀ s₁ _ heq ih =>
    unfold give at heq
    split_ifs at heq
    cases heq
    exact serLoop_accumOk order bits _ s₀ ih
  | @flush s₀ _ ih => exact flush_accumOk order s₀ ih

/-- C3: after the encoder has accumulated a partial byte, `flush` emits that
byte (whose unwritten positions are zero) exactly once; a repeated flush, or
a flush on an empty accumulator, changes nothing. -/
theorem c3_flush_idempotent (order : ByteOrder) (s : EncState) (h : Reachable order s) :
    (s.bitsSet ≠ 0 →
      (flush s).out = s.out ++ [s.byte] ∧
      accumZeroPadded order s ∧
      flush (flush s) = flush s) ∧
    (s.bitsSet = 0 → flush s = s) := by
  have hok := reachable_accumOk order s h
  have hemp : ∀ t : EncState, t.bitsSet = 0 → flush t = t := by
    intro t ht
    unfold flush
    rw [if_neg (by simpa using ht)]
  refine ⟨fun hne => ?_, hemp s⟩
  have hfl : flush s = ⟨0, 0, s.out ++ [s.byte]⟩ := by
    unfold flush
    rw [if_pos hne]
  exact ⟨by rw [hfl], hok.2, by rw [hfl, hemp ⟨0, 0, s.out ++ [s.byte]⟩ rfl]⟩

/-- Witness for `c3_flush_idempotent`: the state after `give(15, 4)` under
LsbFirst holds a 4-bit partial byte. -/
theorem c3_flush_idempotent_witness :
    (serImpl .LsbFirst (toWord 15) 4 EncState.init).bitsSet ≠ 0 ∧
    (flush (serImpl .LsbFirst (toWord 15) 4 EncState.init)).out
      = (serImpl .LsbFirst (toWord 15) 4 EncState.init).out
        ++ [(serImpl .LsbFirst (toWord 15) 4 EncState.init).byte] ∧
    accumZeroPadded .LsbFirst (serImpl .LsbFirst (toWord 15) 4 EncState.init) ∧
    flush (flush (serImpl .LsbFirst (toWord 15) 4 EncState.init))
      = flush (serImpl .LsbFirst (toWord 15) 4 EncState.init) := by
  have hr : Reachable .LsbFirst (serImpl .LsbFirst (toWord 15) 4 EncState.init) :=
    Reachable.give 1 15 4 Reachable.init rfl
  have h := c3_flush_idempotent .LsbFirst _ hr
  have hne : (serImpl .LsbFirst (toWord 15) 4 EncState.init).bitsSet ≠ 0 := by decide
  exact ⟨hne, (h.1 hne).1, (h.1 hne).2.1, (h.1 hne).2.2⟩

/-- Decoding `n` elements produces exactly `n` elements: the container is
grown to exactly the decoded count. -/
theorem desCountV_length (f : DecState → Except Err (Val × DecState)) :
    ∀ n s es s', desCountV f n s = .ok (es, s') → es.length = n := by
  intro n
  induction n with
  | zero =>
    intro s es s' h
    rw [desCountV] at h
    cases h
    rfl
  | succ m ih =>
    intro s es s' h
    rw [desCountV] at h
    cases hf : f s with
    | error e =>
      rw [hf] at h
      exact Except.noConfusion (show Except.error e = Except.ok (es, s') from h)
    | ok p =>
      obtain ⟨v, s1⟩ := p
      rw [hf] at h
      replace h : Except.bind (desCountV f m s1)
          (fun q => Except.ok (ValList.cons v q.1, q.2)) = Except.ok (es, s') := h
      cases hr : desCountV f m s1 with
      | error e =>
        rw [hr] at h
        exact Except.noConfusion (show Except.error e = Except.ok (es, s') from h)
      | ok q =>
        obtain ⟨vs, s2⟩ := q
        rw [hr] at h
        have h' : Except.ok (ValList.cons v vs, s2) = Except.ok (es, s') := h
        injection h' with h1
        injection h1 with h2 h3
        subst h2
        rw [ValList.length, ih s1 vs s2 hr]

/-- C7: the resizable-container policy emits the element count as a
platform-native (64-bit) unsigned integer followed by the elements in order,
each through its own policy; decoding reads the count first, produces a
container of exactly that length, and decodes the elements in place in
order. -/
theorem c7_collection_policy :
    (∀ (order : ByteOrder) (τ : Ty) (es : ValList) (s : EncState),
      serVal order (.vec τ es) s = (give order 8 es.length 64 s).bind (serList order es)) ∧
    (∀ (order : ByteOrder) (v : Val) (vs : ValList) (s : EncState),
      serList order (.cons v vs) s = (serVal order v s).bind (serList order vs)) ∧
    (∀ (order : ByteOrder) (τ : Ty) (s : DecState),
      desTy order (.vec τ) s =
        (take order 8 false 64 s).bind fun p =>
          (desCountV (desTy order τ) p.1.toNat p.2).bind fun q =>
            .ok (.vec τ q.1, q.2)) ∧
    (∀ (f : DecState → Except Err (Val × DecState)) (n : Nat) (s : DecState),
      desCountV f (n + 1) s =
        (f s).bind fun p => (desCountV f n p.2).bind fun q => .ok (.cons p.1 q.1, q.2)) ∧
    (∀ (f : DecState → Except Err (Val × DecState)) (n : Nat) (s : DecState)
        (es : ValList) (s' : DecState),
      desCountV f n s = .ok (es, s') → es.length = n) := by
  refine ⟨fun _ _ _ _ => rfl, fun _ _ _ _ => rfl, fun _ _ _ => rfl, fun _ _ _ => rfl,
    fun f n s es s' h => desCountV_length f n s es s' h⟩

set_option maxRecDepth 40000 in
/-- Witness for `c7_collection_policy`: a 3-element container of bytes
decodes from its count prefix 3 into exactly 3 elements. -/
theorem c7_collection_policy_witness :
    desCountV (desTy .MsbFirst (.uint 8)) 3 (.init [10, 20, 30])
      = .ok (.cons (.uint 8 10) (.cons (.uint 8 20) (.cons (.uint 8 30) .nil)),
             ⟨0, 0, []⟩) ∧
    (ValList.cons (.uint 8 10) (.cons (.uint 8 20) (.cons (.uint 8 30) .nil))).length = 3 ∧
    deserialize (.vec (.uint 8)) [0, 0, 0, 0, 0, 0, 0, 3, 10, 20, 30] .MsbFirst
      = .ok (.vec (.uint 8) (.cons (.uint 8 10) (.cons (.uint 8 20) (.cons (.uint 8 30) .nil)))) :=
  ⟨rfl, c7_collection_policy.2.2.2.2 (desTy .MsbFirst (.uint 8)) 3 (.init [10, 20, 30]) _ _ rfl,
   rfl⟩

/-- Witness for `c5_width_validation` at concrete inputs. -/
theorem c5_width_validation_witness :
    give .MsbFirst 1 0 9 .init = .error .widthExceedsType ∧
    take .MsbFirst 16 false 12 (.init []) = .error .typeExceedsPlatform ∧
    give .MsbFirst 1 0 0 .init = .error .zeroBits ∧
    give .MsbFirst 1 5 8 .init = .ok (serImpl .MsbFirst (toWord 5) 8 .init) :=
  ⟨((c5_width_validation .MsbFirst 1 0 false 9 .init (.init [])).1 (by decide)).1,
   ((c5_width_validation .MsbFirst 16 0 false 12 .init (.init [])).2.1 (by decide) (by decide)).2,
   ((c5_width_validation .MsbFirst 1 0 false 0 .init (.init [])).2.2.1 (by decide) (by decide) rfl).1,
   ((c5_width_validation .MsbFirst 1 5 false 8 .init (.init [])).2.2.2.1 (by decide) (by decide) (by decide)).1⟩

/-! ### Bit-list infrastructure -/

theorem natBits_length : ∀ (n d : Nat), (natBits d n).length = n := by
  intro n
  induction n with
  | zero => intro d; rfl
  | succ m ih => intro d; simp [natBits, ih]

theorem natBits_succ : ∀ (n d : Nat), natBits d (n + 1) = natBits d n ++ [d.testBit n] := by
  intro n
  induction n with
  | zero => intro d; simp [natBits, Nat.testBit_zero]
  | succ m ih =>
    intro d
    rw [show natBits d (m + 1 + 1) = decide (d % 2 = 1) :: natBits (d / 2) (m + 1) from rfl,
      ih (d / 2), Nat.testBit_succ]
    rfl

theorem natBits_ext : ∀ (n x y : Nat), (∀ i, i < n → x.testBit i = y.testBit i) →
    natBits x n = natBits y n := by
  intro n
  induction n with
  | zero => intro x y _; rfl
  | succ m ih =>
    intro x y h
    have h0 : x % 2 = y % 2 := by
      have := h 0 (by omega)
      rw [Nat.testBit_zero, Nat.testBit_zero] at this
      have hx := Nat.mod_two_eq_zero_or_one x
      have hy := Nat.mod_two_eq_zero_or_one y
      rcases hx with hx | hx <;> rcases hy with hy | hy <;> simp [hx, hy] at this ⊢
    rw [natBits, natBits, h0, ih (x / 2) (y / 2)]
    intro i hi
    have := h (i + 1) (by omega)
    rwa [Nat.testBit_succ, Nat.testBit_succ] at this

theorem natBits_mod (x n : Nat) : natBits (x % 2 ^ n) n = natBits x n := by
  apply natBits_ext
  intro i hi
  rw [Nat.testBit_mod_two_pow]
  simp [hi]

theorem unpack_append (order : ByteOrder) :
    ∀ l1 l2 : List Nat, unpack order (l1 ++ l2) = unpack order l1 ++ unpack order l2 := by
  intro l1
  induction l1 with
  | nil => intro l2; rfl
  | cons b rest ih => intro l2; simp [unpack, ih]

theorem unpack_length (order : ByteOrder) :
    ∀ l : List Nat, (unpack order l).length = 8 * l.length := by
  intro l
  induction l with
  | nil => rfl
  | cons b rest ih =>
    simp only [unpack, List.length_append, List.length_cons, ih, byteBits, giveBits]
    cases order <;> simp [natBits_length] <;> ring

/-! ### Encoder stream characterization -/

set_option maxRecDepth 40000 in
theorem msbPendOr : ∀ b < 256, ∀ k < 7, b % 2 = 0 → b < 2 ^ (k + 1) →
    (natBits ((((b ||| 1) <<< 1) % 2 ^ 8) >>> 1) (k + 1)).reverse
      = (natBits (b >>> 1) k).reverse ++ [true] := by decide

set_option maxRecDepth 40000 in
theorem msbPendNo : ∀ b < 256, ∀ k < 7, b % 2 = 0 → b < 2 ^ (k + 1) →
    (natBits (((b <<< 1) % 2 ^ 8) >>> 1) (k + 1)).reverse
      = (natBits (b >>> 1) k).reverse ++ [false] := by decide

theorem natBits_zero (d : Nat) : natBits d 0 = [] := rfl

set_option maxRecDepth 40000 in
theorem msbFlushOr : ∀ b < 256, b % 2 = 0 →
    (natBits (b ||| 1) 8).reverse = (natBits (b >>> 1) 7).reverse ++ [true] := by decide

set_option maxRecDepth 40000 in
theorem msbFlushNo : ∀ b < 256, b % 2 = 0 →
    (natBits b 8).reverse = (natBits (b >>> 1) 7).reverse ++ [false] := by decide

set_option maxRecDepth 40000 in
theorem lsbPendOr : ∀ b < 128, ∀ k < 7, b % 2 ^ (7 - k) = 0 →
    natBits ((b ||| 128) >>> 1 >>> (7 - (k + 1))) (k + 1)
      = natBits (b >>> (7 - k)) k ++ [true] := by decide

set_option maxRecDepth 40000 in
theorem lsbPendNo : ∀ b < 128, ∀ k < 7, b % 2 ^ (7 - k) = 0 →
    natBits (b >>> 1 >>> (7 - (k + 1))) (k + 1)
      = natBits (b >>> (7 - k)) k ++ [false] := by decide

set_option maxRecDepth 40000 in
theorem lsbFlushOr : ∀ b < 128, natBits (b ||| 128) 8 = natBits b 7 ++ [true] := by decide

set_option maxRecDepth 40000 in
theorem lsbFlushNo : ∀ b < 128, natBits b 8 = natBits b 7 ++ [false] := by decide

theorem orderEqM : (ByteOrder.MsbFirst = ByteOrder.MsbFirst) = True := by simp

theorem orderNeLM : (ByteOrder.LsbFirst = ByteOrder.MsbFirst) = False := by simp

theorem boolEqTT : (true = true) = True := by simp

theorem boolEqFT : (false = true) = False := by simp

/-- One transcoder iteration appends exactly the tested bit to the produced
stream (Bool-conditioned form). -/
theorem encStream_stepB (order : ByteOrder) (c : Bool) (s : EncState)
    (h : accumOk order s) :
    encStream order (encStep order (c = true) s) = encStream order s ++ [c] := by
  obtain ⟨b, k, out⟩ := s
  obtain ⟨hk8, hpad⟩ := h
  have hk8' : k < 8 := hk8
  by_cases hk : k + 1 = 8
  · have hk7 : k = 7 := by omega
    subst hk7
    cases order with
    | MsbFirst =>
      simp only [accumZeroPadded] at hpad
      obtain ⟨hb1, hb2⟩ := hpad
      have hb256 : b < 256 := hb2
      cases c <;>
        simp only [encStep, orderEqM, orderNeLM, boolEqTT, boolEqFT, if_true, if_false, if_pos hk, encStream, pendingBits, unpack_append,
          unpack, byteBits, giveBits, natBits_zero, List.reverse_nil, List.append_nil,
          List.append_assoc, Nat.zero_shiftLeft, Nat.zero_mod, Nat.zero_shiftRight]
      · rw [msbFlushNo b hb256 hb1]
      · rw [msbFlushOr b hb256 hb1]
    | LsbFirst =>
      simp only [accumZeroPadded] at hpad
      obtain ⟨hb1, hb2⟩ := hpad
      have hb128 : b < 128 := hb2
      cases c <;>
        simp only [encStep, orderEqM, orderNeLM, boolEqTT, boolEqFT, if_true, if_false, if_pos hk, encStream, pendingBits, unpack_append,
          unpack, byteBits, giveBits, natBits_zero, List.append_nil, List.append_assoc,
          Nat.zero_shiftRight]
      · rw [show (7 : Nat) - 7 = 0 from rfl, Nat.shiftRight_zero, lsbFlushNo b hb128]
      · rw [show (7 : Nat) - 7 = 0 from rfl, Nat.shiftRight_zero, lsbFlushOr b hb128]
  · cases order with
    | MsbFirst =>
      simp only [accumZeroPadded] at hpad
      obtain ⟨hb1, hb2⟩ := hpad
      have hb256 : b < 256 := by
        calc b < 2 ^ (k + 1) := hb2
          _ ≤ 2 ^ 8 := Nat.pow_le_pow_right (by norm_num) (by omega)
          _ = 256 := by norm_num
      cases c <;>
        simp only [encStep, orderEqM, orderNeLM, boolEqTT, boolEqFT, if_true, if_false, if_neg hk, encStream, pendingBits,
          List.append_assoc, List.append_cancel_left_eq]
      · rw [msbPendNo b hb256 k (by omega) hb1 hb2]
      · rw [msbPendOr b hb256 k (by omega) hb1 hb2]
    | LsbFirst =>
      simp only [accumZeroPadded] at hpad
      obtain ⟨hb1, hb2⟩ := hpad
      have hb128 : b < 128 := hb2
      cases c <;>
        simp only [encStep, orderEqM, orderNeLM, boolEqTT, boolEqFT, if_true, if_false, if_neg hk, encStream, pendingBits,
          List.append_assoc, List.append_cancel_left_eq]
      · rw [lsbPendNo b hb128 k (by omega) hb1]
      · rw [lsbPendOr b hb128 k (by omega) hb1]

/-- One transcoder iteration appends exactly the tested bit to the produced
stream. -/
theorem encStream_step (order : ByteOrder) (cond : Prop) [Decidable cond] (s : EncState)
    (h : accumOk order s) :
    encStream order (encStep order cond s) = encStream order s ++ [decide cond] := by
  have hrw : encStep order cond s = encStep order (decide cond = true) s := by
    by_cases hc : cond <;> simp [encStep, hc]
  rw [hrw, encStream_stepB order (decide cond) s h]

/-- Running the transcoder loop appends the tested data bits to the stream. -/
theorem serLoop_stream (order : ByteOrder) :
    ∀ bits data s, accumOk order s →
      encStream order (serLoop order bits data s)
        = encStream order s ++ dataBits order data bits := by
  intro bits
  induction bits with
  | zero =>
    intro data s h
    cases order <;> simp [serLoop, dataBits, dataBitsM, dataBitsL]
  | succ n ih =>
    intro data s h
    rw [serLoop_succ_eq, ih _ _ (accumOk_step order _ s h), encStream_step order _ s h,
      List.append_assoc]
    congr 1
    cases order with
    | MsbFirst => rw [dataBits, dataBits, dataBitsM]; rfl
    | LsbFirst => rw [dataBits, dataBits, dataBitsL]; rfl

theorem dataBitsL_eq_natBits : ∀ (n d : Nat), dataBitsL d n = natBits d n := by
  intro n
  induction n with
  | zero => intro d; rfl
  | succ m ih =>
    intro d
    rw [dataBitsL, natBits]
    have hsr : d >>> 1 = d / 2 := by rw [Nat.shiftRight_eq_div_pow, pow_one]
    rw [hsr, ih (d / 2)]
    congr 1
    rw [Nat.and_one_is_mod]
    rcases Nat.mod_two_eq_zero_or_one d with h | h <;> simp [h]

theorem dataBitsM_shift : ∀ n, n ≤ 64 → ∀ d : Nat,
    dataBitsM ((d <<< (64 - n)) % 2 ^ 64) n = (natBits d n).reverse := by
  intro n
  induction n with
  | zero => intro _ d; rfl
  | succ m ih =>
    intro hm d
    rw [dataBitsM, natBits_succ, List.reverse_append, List.reverse_singleton,
      List.singleton_append]
    have harg : (((d <<< (64 - (m + 1))) % 2 ^ 64) <<< 1) % 2 ^ 64 = (d <<< (64 - m)) % 2 ^ 64 := by
      rw [Nat.shiftLeft_eq, Nat.shiftLeft_eq, Nat.shiftLeft_eq, pow_one, Nat.mod_mul_mod]
      have hmm : d * 2 ^ (64 - (m + 1)) * 2 = d * 2 ^ (64 - m) := by
        rw [mul_assoc, ← pow_succ]
        congr 2
        omega
      rw [hmm]
    rw [harg, ih (by omega) d]
    congr 1
    have hbit : ((d <<< (64 - (m + 1))) % 2 ^ 64).testBit 63 = d.testBit m := by
      rw [Nat.testBit_mod_two_pow, Nat.testBit_shiftLeft]
      have h2 : 63 - (64 - (m + 1)) = m := by omega
      have h3 : 63 ≥ 64 - (m + 1) := by omega
      simp [h2, h3, Nat.sub_sub_self (show m ≤ 63 by omega)]
    rw [Nat.and_two_pow]
    rcases hb : d.testBit m <;> rcases hx : ((d <<< (64 - (m + 1))) % 2 ^ 64).testBit 63 <;>
      rw [hb, hx] at hbit <;> simp_all

/-- `impl(data, bits)` appends exactly the stream-order bits of `data`'s low
`bits` bits. -/
theorem serImpl_stream (order : ByteOrder) (data bits : Nat) (s : EncState)
    (h : accumOk order s) (hb : bits ≤ 64) :
    encStream order (serImpl order data bits s)
      = encStream order s ++ giveBits order data bits := by
  unfold serImpl
  cases order with
  | MsbFirst =>
    rw [serLoop_stream .MsbFirst bits _ s h]
    simp only [orderEqM, if_true, dataBits]
    rw [show wordBits = 64 from rfl, dataBitsM_shift bits hb data, giveBits]
  | LsbFirst =>
    rw [serLoop_stream .LsbFirst bits _ s h]
    simp only [orderNeLM, if_false, dataBits]
    rw [dataBitsL_eq_natBits, giveBits]

/-- `impl` preserves the accumulator invariant. -/
theorem serImpl_accumOk (order : ByteOrder) (data bits : Nat) (s : EncState)
    (h : accumOk order s) : accumOk order (serImpl order data bits s) :=
  serLoop_accumOk order bits _ s h

theorem exBind_ok {α β : Type} (a : α) (f : α → Except Err β) :
    Except.bind (Except.ok a) f = f a := rfl

theorem exBind_err {α β : Type} (e : Err) (f : α → Except Err β) :
    Except.bind (Except.error e) f = Except.error e := rfl

theorem intW_facts (w : Nat) (h : intW w) : w ≤ 8 * (w / 8) ∧ w / 8 ≤ 8 ∧ w ≠ 0 ∧ w ≤ 64 := by
  rcases h with rfl | rfl | rfl | rfl <;> decide

theorem give_ok (order : ByteOrder) (szT : Nat) (data : Int) (bits : Nat) (s : EncState)
    (h1 : bits ≤ 8 * szT) (h2 : szT ≤ 8) (h3 : bits ≠ 0) :
    give order szT data bits s = .ok (serImpl order (toWord data) bits s) := by
  unfold give
  rw [if_neg (by omega), if_neg (by omega), if_neg h3]

theorem give_stream (order : ByteOrder) (szT : Nat) (data : Int) (bits : Nat) (s : EncState)
    (h : accumOk order s) (h1 : bits ≤ 8 * szT) (h2 : szT ≤ 8) (h3 : bits ≠ 0) :
    ∃ s', give order szT data bits s = .ok s' ∧ accumOk order s' ∧
      encStream order s' = encStream order s ++ giveBits order (toWord data) bits :=
  ⟨serImpl order (toWord data) bits s, give_ok order szT data bits s h1 h2 h3,
   serImpl_accumOk order (toWord data) bits s h,
   serImpl_stream order (toWord data) bits s h (by omega)⟩

mutual
/-- The policy encoder succeeds on well-formed values and appends exactly
the value's wire bits to the stream. -/
theorem serVal_stream (order : ByteOrder) (v : Val) : wfVal v → ∀ s, accumOk order s →
    ∃ s', serVal order v s = .ok s' ∧ accumOk order s' ∧
      encStream order s' = encStream order s ++ valBits order v := by
  cases v with
  | uint w x =>
    intro hwf s hs
    exact give_stream order (w / 8) x w s hs (intW_facts w hwf.1).1 (intW_facts w hwf.1).2.1
      (intW_facts w hwf.1).2.2.1
  | sint w x =>
    intro hwf s hs
    exact give_stream order (w / 8) x w s hs (intW_facts w hwf.1).1 (intW_facts w hwf.1).2.1
      (intW_facts w hwf.1).2.2.1
  | enum sgn w x =>
    intro hwf s hs
    exact give_stream order (w / 8) x w s hs (intW_facts w hwf.1).1 (intW_facts w hwf.1).2.1
      (intW_facts w hwf.1).2.2.1
  | float w p =>
    intro hwf s hs
    have hw : intW w := by
      rcases hwf.1 with rfl | rfl | rfl <;> simp [intW]
    exact give_stream order (w / 8) p w s hs (intW_facts w hw).1 (intW_facts w hw).2.1
      (intW_facts w hw).2.2.1
  | bits sgn tw w x =>
    intro hwf s hs
    obtain ⟨htw, hw1, hw2, _⟩ := hwf
    have h8 := intW_facts tw htw
    exact give_stream order (tw / 8) x w s hs (by omega) (by omega) (by omega)
  | spare w =>
    intro hwf s hs
    obtain ⟨hw1, hw2⟩ := hwf
    exact give_stream order 8 0 w s hs (by omega) (by omega) (by omega)
  | vec τ es =>
    intro hwf s hs
    obtain ⟨hlen, hwl, _⟩ := hwf
    obtain ⟨s1, hg, hs1, he1⟩ := give_stream order 8 es.length 64 s hs (by omega)
      (by omega) (by omega)
    obtain ⟨s2, hl, hs2, he2⟩ := serList_stream order es hwl s1 hs1
    refine ⟨s2, ?_, hs2, ?_⟩
    · have hunf : serVal order (.vec τ es) s
          = Except.bind (give order 8 es.length 64 s) (serList order es) := rfl
      rw [hunf, hg, exBind_ok, hl]
    · rw [he2, he1, valBits, List.append_assoc]
  | arr τ es =>
    intro hwf s hs
    obtain ⟨hwl, _⟩ := hwf
    obtain ⟨s1, hl, hs1, he1⟩ := serList_stream order es hwl s hs
    exact ⟨s1, hl, hs1, he1⟩
  | struct f0 fs =>
    intro hwf s hs
    obtain ⟨hw0, hwl⟩ := hwf
    obtain ⟨s1, h0, hs1, he1⟩ := serVal_stream order f0 hw0 s hs
    obtain ⟨s2, hl, hs2, he2⟩ := serList_stream order fs hwl s1 hs1
    refine ⟨s2, ?_, hs2, ?_⟩
    · have hunf : serVal order (.struct f0 fs) s
          = Except.bind (serVal order f0 s) (serList order fs) := rfl
      rw [hunf, h0, exBind_ok, hl]
    · rw [he2, he1, valBits, List.append_assoc]

theorem serList_stream (order : ByteOrder) (vs : ValList) : wfList vs → ∀ s, accumOk order s →
    ∃ s', serList order vs s = .ok s' ∧ accumOk order s' ∧
      encStream order s' = encStream order s ++ valListBits order vs := by
  cases vs with
  | nil =>
    intro _ s hs
    exact ⟨s, rfl, hs, by simp [valListBits]⟩
  | cons v rest =>
    intro hwf s hs
    obtain ⟨hv, hr⟩ := hwf
    obtain ⟨s1, h0, hs1, he1⟩ := serVal_stream order v hv s hs
    obtain ⟨s2, hl, hs2, he2⟩ := serList_stream order rest hr s1 hs1
    refine ⟨s2, ?_, hs2, ?_⟩
    · have hunf : serList order (.cons v rest) s
          = Except.bind (serVal order v s) (serList order rest) := rfl
      rw [hunf, h0, exBind_ok, hl]
    · rw [he2, he1, valListBits, List.append_assoc]
end

set_option maxRecDepth 40000 in
theorem msbFlushPad : ∀ b < 256, ∀ k < 8, 0 < k ∧ b % 2 = 0 ∧ b < 2 ^ (k + 1) →
    (natBits b 8).reverse
      = List.replicate (7 - k) false ++ ((natBits (b >>> 1) k).reverse ++ [false]) := by decide

set_option maxRecDepth 40000 in
theorem lsbFlushPad : ∀ b < 128, ∀ k < 8, 0 < k ∧ b % 2 ^ (7 - k) = 0 →
    natBits b 8
      = List.replicate (7 - k) false ++ (natBits (b >>> (7 - k)) k ++ [false]) := by decide

theorem pendingBits_length (order : ByteOrder) (s : EncState) :
    (pendingBits order s).length = s.bitsSet := by
  cases order <;> simp [pendingBits, natBits_length]

theorem encStream_init (order : ByteOrder) : encStream order .init = [] := by
  cases order <;> rfl

/-- The byte `flush` emits carries the pending bits at their (misaligned)
positions: in stream order, `7 - k` zeros, then the `k` pending bits, then a
final zero. -/
theorem byteBits_flush (order : ByteOrder) (s : EncState) (h : accumOk order s)
    (hk : s.bitsSet ≠ 0) :
    byteBits order s.byte
      = List.replicate (7 - s.bitsSet) false ++ (pendingBits order s ++ [false]) := by
  obtain ⟨b, k, out⟩ := s
  obtain ⟨hk8, hpad⟩ := h
  have hk8' : k < 8 := hk8
  have hk0 : 0 < k := by
    rcases Nat.eq_zero_or_pos k with h0 | h0
    · exact absurd h0 (by simpa using hk)
    · exact h0
  cases order with
  | MsbFirst =>
    simp only [accumZeroPadded] at hpad
    obtain ⟨hb1, hb2⟩ := hpad
    have hb256 : b < 256 := by
      calc b < 2 ^ (k + 1) := hb2
        _ ≤ 2 ^ 8 := Nat.pow_le_pow_right (by norm_num) (by omega)
        _ = 256 := by norm_num
    simp only [byteBits, giveBits, pendingBits]
    exact msbFlushPad b hb256 k hk8' ⟨hk0, hb1, hb2⟩
  | LsbFirst =>
    simp only [accumZeroPadded] at hpad
    obtain ⟨hb1, hb2⟩ := hpad
    simp only [byteBits, giveBits, pendingBits]
    exact lsbFlushPad b hb2 k hk8' ⟨hk0, hb1⟩

/-- `serialize` on a well-formed value succeeds; the emitted bytes carry the
value's wire bits exactly when the total width is a multiple of 8, and
otherwise carry the aligned prefix followed by the flush-displaced tail. -/
theorem serialize_stream (order : ByteOrder) (v : Val) (h : wfVal v) :
    ∃ bs, serialize v order = .ok bs ∧
      ((valBits order v).length % 8 = 0 ∧ unpack order bs = valBits order v ∨
       (valBits order v).length % 8 ≠ 0 ∧
        unpack order bs
          = List.take ((valBits order v).length - (valBits order v).length % 8)
              (valBits order v)
            ++ (List.replicate (7 - (valBits order v).length % 8) false
            ++ (List.drop ((valBits order v).length - (valBits order v).length % 8)
                  (valBits order v)
            ++ [false]))) := by
  obtain ⟨s', hser, hacc, hstr⟩ := serVal_stream order v h .init (accumOk_empty order [])
  rw [encStream_init, List.nil_append] at hstr
  have hlen : (valBits order v).length = 8 * s'.out.length + s'.bitsSet := by
    rw [← hstr, encStream, List.length_append, unpack_length, pendingBits_length]
  have hunf : serialize v order
      = Except.bind (serVal order v .init) (fun s => .ok (flush s).out) := rfl
  have hbs : s'.bitsSet < 8 := hacc.1
  by_cases hk : s'.bitsSet = 0
  · refine ⟨s'.out, ?_, Or.inl ⟨by omega, ?_⟩⟩
    · rw [hunf, hser, exBind_ok]
      have hfl : flush s' = s' := by
        unfold flush
        rw [if_neg (by simpa using hk)]
      rw [hfl]
    · have hpe : pendingBits order s' = [] := by
        have := pendingBits_length order s'
        rw [hk] at this
        exact List.length_eq_zero.mp this
      rw [← hstr, encStream, hpe, List.append_nil]
  · refine ⟨s'.out ++ [s'.byte], ?_, Or.inr ⟨by omega, ?_⟩⟩
    · rw [hunf, hser, exBind_ok]
      have hfl : flush s' = ⟨0, 0, s'.out ++ [s'.byte]⟩ := by
        unfold flush
        rw [if_pos hk]
      rw [hfl]
    · have hmod : (valBits order v).length % 8 = s'.bitsSet := by omega
      have hsub : (valBits order v).length - (valBits order v).length % 8
          = (unpack order s'.out).length := by
        rw [unpack_length]
        omega
      have hvb : valBits order v = unpack order s'.out ++ pendingBits order s' := by
        rw [← hstr]
        rfl
      rw [unpack_append]
      have hsingle : unpack order [s'.byte] = byteBits order s'.byte := by
        simp [unpack]
      rw [hsingle, byteBits_flush order s' hacc hk, hsub, hmod, hvb,
        List.take_left, List.drop_left]

/-! ### Decoder stream characterization -/

theorem shiftRight_one (x : Nat) : x >>> 1 = x / 2 := by
  rw [Nat.shiftRight_eq_div_pow, pow_one]

theorem and_two_pow_ne (x i : Nat) : (x &&& 2 ^ i ≠ 0) ↔ x.testBit i = true := by
  rw [Nat.and_two_pow]
  have h2 : (2 : Nat) ^ i ≠ 0 := by positivity
  rcases h : x.testBit i <;> simp [h, h2]

theorem decPending_length (order : ByteOrder) (s : DecState) :
    (decPending order s).length = s.bitsLeft := by
  cases order <;> simp [decPending, natBits_length]

theorem decPending_zero (order : ByteOrder) (byte : Nat) (input : List Nat) :
    decPending order ⟨byte, 0, input⟩ = [] := by
  cases order <;> simp [decPending, natBits_zero]

theorem decPending_succ_lsb (byte m : Nat) (input : List Nat) :
    decPending .LsbFirst ⟨byte, m + 1, input⟩
      = Nat.testBit (byte >>> 1) 0 :: decPending .LsbFirst ⟨byte >>> 1, m, input⟩ := by
  simp only [decPending]
  rw [natBits, shiftRight_one (byte >>> 1), Nat.testBit_zero]

theorem decPending_succ_msb (byte m : Nat) (input : List Nat) (hm : m + 1 < 8) :
    decPending .MsbFirst ⟨byte, m + 1, input⟩
      = Nat.testBit ((byte <<< 1) % 2 ^ 8) 7
        :: decPending .MsbFirst ⟨(byte <<< 1) % 2 ^ 8, m, input⟩ := by
  simp only [decPending]
  rw [natBits_succ, List.reverse_append, List.reverse_singleton, List.singleton_append]
  congr 1
  · rw [Nat.testBit_shiftRight]
    congr 1
    omega
  · congr 1
    apply natBits_ext
    intro i hi
    simp only [Nat.testBit_shiftRight, Nat.testBit_mod_two_pow, Nat.testBit_shiftLeft]
    have e1 : 8 - (m + 1) + i < 8 := by omega
    have e2 : 1 ≤ 8 - (m + 1) + i := by omega
    have e3 : 8 - m + i < 8 := by omega
    have e4 : 1 ≤ 8 - m + i := by omega
    have e5 : 8 - m + i - 1 < 8 := by omega
    have e6 : 1 ≤ 8 - m + i - 1 := by omega
    have e7 : 8 - m + i - 1 - 1 = 8 - (m + 1) + i - 1 := by omega
    have e8 : 7 - m + i < 8 := by omega
    have e9 : 1 ≤ 7 - m + i := by omega
    simp [e1, e2, e3, e4, e5, e6, e7, e8, e9]

theorem orderEqL : (ByteOrder.LsbFirst = ByteOrder.LsbFirst) = True := by simp

theorem orderNeML : (ByteOrder.MsbFirst = ByteOrder.LsbFirst) = False := by simp

theorem and128_ne (x : Nat) : (x &&& 128 ≠ 0) ↔ x.testBit 7 = true := by
  have h := and_two_pow_ne x 7
  norm_num at h
  exact h

theorem and1_ne (x : Nat) : (x &&& 1 ≠ 0) ↔ x.testBit 0 = true := by
  simp only [Nat.and_one_is_mod, Nat.testBit_zero, decide_eq_true_eq]
  omega

theorem pushBit_eq_msb (data b1 : Nat) :
    (if b1 &&& 128 ≠ 0 then (data <<< 1) % 2 ^ 64 ||| 1 else (data <<< 1) % 2 ^ 64)
      = pushBit .MsbFirst data (b1.testBit 7) := by
  by_cases hb : b1 &&& 128 ≠ 0
  · rw [if_pos hb, (and128_ne b1).mp hb]
    rfl
  · rw [if_neg hb]
    have h7 : b1.testBit 7 = false := by
      rcases h : b1.testBit 7
      · rfl
      · exact absurd ((and128_ne b1).mpr h) hb
    rw [h7]
    rfl

theorem pushBit_eq_lsb (data b1 : Nat) :
    (if b1 &&& 1 ≠ 0 then data >>> 1 ||| 2 ^ 63 else data >>> 1)
      = pushBit .LsbFirst data (b1.testBit 0) := by
  by_cases hb : b1 &&& 1 ≠ 0
  · rw [if_pos hb, (and1_ne b1).mp hb]
    rfl
  · rw [if_neg hb]
    have h0 : b1.testBit 0 = false := by
      rcases h : b1.testBit 0
      · rfl
      · exact absurd ((and1_ne b1).mpr h) hb
    rw [h0]
    rfl

theorem byteBits_head_msb (b : Nat) (input : List Nat) :
    byteBits .MsbFirst b = Nat.testBit b 7 :: decPending .MsbFirst ⟨b, 7, input⟩ := by
  simp only [byteBits, giveBits, decPending]
  rw [natBits_succ, List.reverse_append, List.reverse_singleton, List.singleton_append]
  congr 1
  congr 1
  apply natBits_ext
  intro i hi
  simp only [Nat.testBit_shiftRight, Nat.testBit_mod_two_pow, Nat.testBit_shiftLeft]
  have e1 : 8 - 7 + i < 8 := by omega
  have e2 : 1 ≤ 8 - 7 + i := by omega
  have e3 : 8 - 7 + i - 1 = i := by omega
  simp [e1, e2, e3]

theorem byteBits_head_lsb (b : Nat) (input : List Nat) :
    byteBits .LsbFirst b = Nat.testBit b 0 :: decPending .LsbFirst ⟨b, 7, input⟩ := by
  simp only [byteBits, giveBits, decPending]
  rw [natBits, shiftRight_one b, Nat.testBit_zero]

theorem remBits_fetch_msb (byte b : Nat) (rest : List Nat) :
    remBits .MsbFirst ⟨byte, 0, b :: rest⟩
      = Nat.testBit b 7 :: remBits .MsbFirst ⟨b, 7, rest⟩ := by
  rw [remBits, remBits, decPending_zero, List.nil_append, unpack,
    byteBits_head_msb b rest, List.cons_append]

theorem remBits_fetch_lsb (byte b : Nat) (rest : List Nat) :
    remBits .LsbFirst ⟨byte, 0, b :: rest⟩
      = Nat.testBit b 0 :: remBits .LsbFirst ⟨b, 7, rest⟩ := by
  rw [remBits, remBits, decPending_zero, List.nil_append, unpack,
    byteBits_head_lsb b rest, List.cons_append]

theorem remBits_mid_msb (byte m : Nat) (input : List Nat) (hm : m + 1 < 8) :
    remBits .MsbFirst ⟨byte, m + 1, input⟩
      = Nat.testBit ((byte <<< 1) % 2 ^ 8) 7
        :: remBits .MsbFirst ⟨(byte <<< 1) % 2 ^ 8, m, input⟩ := by
  rw [remBits, remBits, decPending_succ_msb byte m input hm, List.cons_append]

theorem remBits_mid_lsb (byte m : Nat) (input : List Nat) :
    remBits .LsbFirst ⟨byte, m + 1, input⟩
      = Nat.testBit (byte >>> 1) 0 :: remBits .LsbFirst ⟨byte >>> 1, m, input⟩ := by
  rw [remBits, remBits, decPending_succ_lsb byte m input, List.cons_append]

theorem desLoop_empty (order : ByteOrder) (n data mask byte : Nat) :
    desLoop order (n + 1) data mask ⟨byte, 0, []⟩ = .error .outOfRange := by
  rw [desLoop]
  simp [bufferGetByte]

theorem desLoop_fetch_msb (n data mask byte b : Nat) (rest : List Nat) :
    desLoop .MsbFirst (n + 1) data mask ⟨byte, 0, b :: rest⟩
      = desLoop .MsbFirst n (pushBit .MsbFirst data (b.testBit 7))
          (shift1 .MsbFirst mask) ⟨b, 7, rest⟩ := by
  rw [desLoop]
  simp only [orderNeML, if_false, if_true, bufferGetByte, if_pos]
  rw [pushBit_eq_msb]
  rfl

theorem desLoop_fetch_lsb (n data mask byte b : Nat) (rest : List Nat) :
    desLoop .LsbFirst (n + 1) data mask ⟨byte, 0, b :: rest⟩
      = desLoop .LsbFirst n (pushBit .LsbFirst data (b.testBit 0))
          (shift1 .LsbFirst mask) ⟨b, 7, rest⟩ := by
  rw [desLoop]
  simp only [orderEqL, if_false, if_true, bufferGetByte, if_pos]
  rw [pushBit_eq_lsb]
  rfl

theorem desLoop_mid_msb (n data mask byte m : Nat) (input : List Nat) :
    desLoop .MsbFirst (n + 1) data mask ⟨byte, m + 1, input⟩
      = desLoop .MsbFirst n (pushBit .MsbFirst data (((byte <<< 1) % 2 ^ 8).testBit 7))
          (shift1 .MsbFirst mask) ⟨(byte <<< 1) % 2 ^ 8, m, input⟩ := by
  rw [desLoop]
  simp only [orderNeML, if_false, if_true, Nat.succ_ne_zero, if_neg]
  rw [pushBit_eq_msb]
  rfl

theorem desLoop_mid_lsb (n data mask byte m : Nat) (input : List Nat) :
    desLoop .LsbFirst (n + 1) data mask ⟨byte, m + 1, input⟩
      = desLoop .LsbFirst n (pushBit .LsbFirst data ((byte >>> 1).testBit 0))
          (shift1 .LsbFirst mask) ⟨byte >>> 1, m, input⟩ := by
  rw [desLoop]
  simp only [orderEqL, if_false, if_true, Nat.succ_ne_zero, if_neg]
  rw [pushBit_eq_lsb]
  rfl

theorem pushBits_cons (order : ByteOrder) (data : Nat) (c : Bool) (l : List Bool) :
    pushBits order data (c :: l) = pushBits order (pushBit order data c) l := rfl

theorem shiftN_succ (order : ByteOrder) (mask n : Nat) :
    shiftN order mask (n + 1) = shiftN order (shift1 order mask) n := rfl

/-- The decoder loop: with enough bits available it succeeds, consumes
exactly `bits` stream bits, folds them into the data register, and shifts
the mask once per bit; with too few it raises the out-of-range error. -/
theorem desLoop_stream (order : ByteOrder) :
    ∀ bits data mask s, s.bitsLeft < 8 →
      (bits ≤ (remBits order s).length →
        ∃ s', desLoop order bits data mask s
            = .ok (pushBits order data (List.take bits (remBits order s)),
                   shiftN order mask bits, s')
          ∧ s'.bitsLeft < 8 ∧ remBits order s' = List.drop bits (remBits order s)) ∧
      ((remBits order s).length < bits →
        desLoop order bits data mask s = .error .outOfRange) := by
  intro bits
  induction bits with
  | zero =>
    intro data mask s hs
    exact ⟨fun _ => ⟨s, by simp [desLoop, pushBits, shiftN], hs, by simp⟩,
      fun h => absurd h (by omega)⟩
  | succ n ih =>
    intro data mask s hs
    obtain ⟨byte, m, input⟩ := s
    have hm : m < 8 := hs
    cases m with
    | zero =>
      cases input with
      | nil =>
        refine ⟨fun hle => ?_, fun _ => desLoop_empty order n data mask byte⟩
        have hz : remBits order ⟨byte, 0, []⟩ = [] := by
          rw [remBits, decPending_zero]
          rfl
        rw [hz] at hle
        simp at hle
      | cons b rest =>
        have hrem : remBits order ⟨byte, 0, b :: rest⟩
            = Nat.testBit b (if order = .MsbFirst then 7 else 0)
              :: remBits order ⟨b, 7, rest⟩ := by
          cases order
          · simp only [orderEqM, if_true]
            exact remBits_fetch_msb byte b rest
          · simp only [orderNeLM, if_false]
            exact remBits_fetch_lsb byte b rest
        have hstep : desLoop order (n + 1) data mask ⟨byte, 0, b :: rest⟩
            = desLoop order n
                (pushBit order data (b.testBit (if order = .MsbFirst then 7 else 0)))
                (shift1 order mask) ⟨b, 7, rest⟩ := by
          cases order
          · simp only [orderEqM, if_true]
            exact desLoop_fetch_msb n data mask byte b rest
          · simp only [orderNeLM, if_false]
            exact desLoop_fetch_lsb n data mask byte b rest
        obtain ⟨ihok, iherr⟩ := ih (pushBit order data
          (b.testBit (if order = .MsbFirst then 7 else 0))) (shift1 order mask)
          ⟨b, 7, rest⟩ (by norm_num)
        constructor
        · intro hle
          rw [hrem] at hle
          obtain ⟨s', h1, h2, h3⟩ := ihok (by simpa using hle)
          refine ⟨s', ?_, h2, ?_⟩
          · rw [hstep, h1, hrem, List.take_succ_cons, pushBits_cons, shiftN_succ]
          · rw [h3, hrem, List.drop_succ_cons]
        · intro hlt
          rw [hrem] at hlt
          rw [hstep]
          exact iherr (by simpa using hlt)
    | succ m' =>
      have hrem : remBits order ⟨byte, m' + 1, input⟩
          = Nat.testBit (if order = .MsbFirst then (byte <<< 1) % 2 ^ 8 else byte >>> 1)
              (if order = .MsbFirst then 7 else 0)
            :: remBits order
                ⟨if order = .MsbFirst then (byte <<< 1) % 2 ^ 8 else byte >>> 1, m', input⟩ := by
        cases order
        · simp only [orderEqM, if_true]
          exact remBits_mid_msb byte m' input hm
        · simp only [orderNeLM, if_false]
          exact remBits_mid_lsb byte m' input
      have hstep : desLoop order (n + 1) data mask ⟨byte, m' + 1, input⟩
          = desLoop order n
              (pushBit order data
                (Nat.testBit (if order = .MsbFirst then (byte <<< 1) % 2 ^ 8 else byte >>> 1)
                  (if order = .MsbFirst then 7 else 0)))
              (shift1 order mask)
              ⟨if order = .MsbFirst then (byte <<< 1) % 2 ^ 8 else byte >>> 1, m', input⟩ := by
        cases order
        · simp only [orderEqM, if_true]
          exact desLoop_mid_msb n data mask byte m' input
        · simp only [orderNeLM, if_false]
          exact desLoop_mid_lsb n data mask byte m' input
      obtain ⟨ihok, iherr⟩ := ih (pushBit order data
        (Nat.testBit (if order = .MsbFirst then (byte <<< 1) % 2 ^ 8 else byte >>> 1)
          (if order = .MsbFirst then 7 else 0))) (shift1 order mask)
        ⟨if order = .MsbFirst then (byte <<< 1) % 2 ^ 8 else byte >>> 1, m', input⟩
        (by simp only []; omega)
      constructor
      · intro hle
        rw [hrem] at hle
        obtain ⟨s', h1, h2, h3⟩ := ihok (by simpa using hle)
        refine ⟨s', ?_, h2, ?_⟩
        · rw [hstep, h1, hrem, List.take_succ_cons, pushBits_cons, shiftN_succ]
        · rw [h3, hrem, List.drop_succ_cons]
      · intro hlt
        rw [hrem] at hlt
        rw [hstep]
        exact iherr (by simpa using hlt)

theorem bitsVal_natBits : ∀ (n d : Nat), bitsVal (natBits d n) = d % 2 ^ n := by
  intro n
  induction n with
  | zero => intro d; simp [natBits, bitsVal, Nat.mod_one]
  | succ m ih =>
    intro d
    rw [natBits, bitsVal, ih (d / 2), show (2 : Nat) ^ (m + 1) = 2 * 2 ^ m by ring,
      @Nat.mod_mul 2 (2 ^ m) d]
    rcases Nat.mod_two_eq_zero_or_one d with h | h <;> simp [h]

/-! ### Bit-value arithmetic -/

theorem or_two_pow_add (x i : Nat) (h : x.testBit i = false) :
    x ||| 2 ^ i = x + 2 ^ i := by
  have hlo : x % 2 ^ (i + 1) < 2 ^ i := by
    have hm := @Nat.mod_pow_succ x 2 i
    have hbit : x / 2 ^ i % 2 = 0 := by
      have ht := @Nat.testBit_to_div_mod i x
      rw [h] at ht
      have := of_decide_eq_false ht.symm
      omega
    rw [hbit] at hm
    have : x % 2 ^ i < 2 ^ i := Nat.mod_lt _ (by positivity)
    omega
  have hq : (x + 2 ^ i) / 2 ^ (i + 1) = x / 2 ^ (i + 1) := by
    have hsplit := Nat.div_add_mod x (2 ^ (i + 1))
    have h2 : (2 : Nat) ^ i + 2 ^ i = 2 ^ (i + 1) := by ring
    calc (x + 2 ^ i) / 2 ^ (i + 1)
        = (2 ^ (i + 1) * (x / 2 ^ (i + 1)) + (x % 2 ^ (i + 1) + 2 ^ i)) / 2 ^ (i + 1) := by
          congr 1
          omega
      _ = x / 2 ^ (i + 1) + (x % 2 ^ (i + 1) + 2 ^ i) / 2 ^ (i + 1) :=
          Nat.mul_add_div (by positivity) _ _
      _ = x / 2 ^ (i + 1) := by
          have : (x % 2 ^ (i + 1) + 2 ^ i) / 2 ^ (i + 1) = 0 :=
            Nat.div_eq_of_lt (by omega)
          omega
  apply Nat.eq_of_testBit_eq
  intro j
  rcases lt_trichotomy j i with hj | rfl | hj
  · rw [Nat.testBit_or, Nat.testBit_two_pow_of_ne (by omega), Bool.or_false,
      Nat.add_comm x (2 ^ i), Nat.testBit_two_pow_add_gt hj]
  · rw [Nat.testBit_or, Nat.testBit_two_pow_self, Bool.or_true,
      Nat.add_comm x (2 ^ j), Nat.testBit_two_pow_add_eq, h]
    rfl
  · obtain ⟨t, rfl⟩ : ∃ t, j = i + 1 + t := ⟨j - (i + 1), by omega⟩
    have hx : x.testBit (i + 1 + t) = (x / 2 ^ (i + 1)).testBit t := by
      rw [← Nat.testBit_shiftRight, Nat.shiftRight_eq_div_pow]
    have hx2 : (x + 2 ^ i).testBit (i + 1 + t) = ((x + 2 ^ i) / 2 ^ (i + 1)).testBit t := by
      rw [← Nat.testBit_shiftRight, Nat.shiftRight_eq_div_pow]
    rw [Nat.testBit_or, Nat.testBit_two_pow_of_ne (by omega), Bool.or_false, hx2, hq, hx]

theorem pushBit_msb_val (a : Nat) (c : Bool) :
    pushBit .MsbFirst a c = (2 * a + (if c then 1 else 0)) % 2 ^ 64 := by
  have hsh : (a <<< 1) % 2 ^ 64 = 2 * a % 2 ^ 64 := by
    rw [Nat.shiftLeft_eq, pow_one, Nat.mul_comm]
  cases c with
  | false => simpa [pushBit] using hsh
  | true =>
    have heven : (2 * a % 2 ^ 64).testBit 0 = false := by
      rw [Nat.testBit_zero, decide_eq_false_iff_not]
      omega
    have hor := or_two_pow_add (2 * a % 2 ^ 64) 0 heven
    simp only [pow_zero] at hor
    have hlt : 2 * a % 2 ^ 64 + 1 < 2 ^ 64 := by omega
    have hmod : (2 * a + 1) % 2 ^ 64 = 2 * a % 2 ^ 64 + 1 := by
      conv_lhs => rw [Nat.add_mod]
      have h1 : (1 : Nat) % 2 ^ 64 = 1 := by norm_num
      rw [h1, Nat.mod_eq_of_lt hlt]
    simp only [pushBit, if_true, hsh, hor, hmod]

theorem pushBit_lsb_val (a : Nat) (c : Bool) (ha : a < 2 ^ 64) :
    pushBit .LsbFirst a c = a / 2 + (if c then 2 ^ 63 else 0) := by
  have hsh : a >>> 1 = a / 2 := shiftRight_one a
  cases c with
  | false => simpa [pushBit] using hsh
  | true =>
    have hlt : a / 2 < 2 ^ 63 := by omega
    have hbit : (a / 2).testBit 63 = false := Nat.testBit_lt_two_pow hlt
    have hor := or_two_pow_add (a / 2) 63 hbit
    simp only [pushBit, if_true, hsh, hor]

theorem pushBit_lt (order : ByteOrder) (a : Nat) (c : Bool) (ha : a < 2 ^ 64) :
    pushBit order a c < 2 ^ 64 := by
  have hm : (a <<< 1) % 2 ^ 64 < 2 ^ 64 := Nat.mod_lt _ (by positivity)
  have hl : a >>> 1 < 2 ^ 64 := by
    rw [shiftRight_one]
    omega
  cases order <;> cases c <;>
    simp only [pushBit, boolEqTT, boolEqFT, if_true, if_false] <;>
    first
      | exact hm
      | exact hl
      | exact Nat.or_lt_two_pow hm (by norm_num)
      | exact Nat.or_lt_two_pow hl (by norm_num)

theorem pushBits_lt (order : ByteOrder) :
    ∀ (L : List Bool) (a : Nat), a < 2 ^ 64 → pushBits order a L < 2 ^ 64 := by
  intro L
  induction L with
  | nil => intro a ha; exact ha
  | cons c l ih =>
    intro a ha
    rw [pushBits_cons]
    exact ih _ (pushBit_lt order a c ha)

theorem pushBits_msb :
    ∀ (L : List Bool) (a : Nat), a < 2 ^ 64 →
      pushBits .MsbFirst a L = (a * 2 ^ L.length + bitsValM L) % 2 ^ 64 := by
  intro L
  induction L with
  | nil =>
    intro a ha
    simp only [pushBits, List.foldl_nil, List.length_nil, bitsValM, pow_zero, Nat.mul_one,
      Nat.add_zero]
    omega
  | cons c l ih =>
    intro a ha
    rw [pushBits_cons, pushBit_msb_val,
      ih _ (Nat.mod_lt _ (by positivity)), bitsValM]
    have key : ((2 * a + (if c then 1 else 0)) % 2 ^ 64 * 2 ^ l.length + bitsValM l) % 2 ^ 64
        = ((2 * a + (if c then 1 else 0)) * 2 ^ l.length + bitsValM l) % 2 ^ 64 := by
      conv_lhs => rw [Nat.add_mod, Nat.mod_mul_mod, ← Nat.add_mod]
    rw [key]
    congr 1
    have hlen : (c :: l).length = l.length + 1 := rfl
    rw [hlen]
    cases c <;> simp only [boolEqTT, boolEqFT, if_true, if_false] <;> ring

theorem pushBits_lsb :
    ∀ (L : List Bool) (a : Nat), a < 2 ^ 64 → L.length ≤ 64 →
      pushBits .LsbFirst a L = a >>> L.length + 2 ^ (64 - L.length) * bitsVal L := by
  intro L
  induction L with
  | nil =>
    intro a ha _
    simp [pushBits, bitsVal]
  | cons c l ih =>
    intro a ha hlen
    have hlen' : l.length ≤ 63 := by
      have : (c :: l).length = l.length + 1 := rfl
      omega
    rw [pushBits_cons, pushBit_lsb_val a c ha,
      ih _ (by cases c <;> simp only [boolEqTT, boolEqFT, if_true, if_false] <;> omega) (by omega)]
    have hsplit : (a / 2 + (if c then 2 ^ 63 else 0)) >>> l.length
        = a >>> (l.length + 1) + (if c then 2 ^ (63 - l.length) else 0) := by
      rw [Nat.shiftRight_eq_div_pow, Nat.shiftRight_eq_div_pow]
      have h63 : (2 : Nat) ^ 63 = 2 ^ (63 - l.length) * 2 ^ l.length := by
        rw [← pow_add]
        congr 1
        omega
      cases c with
      | false =>
        simp only [boolEqFT, if_false, Nat.add_zero]
        rw [Nat.div_div_eq_div_mul, ← pow_succ']
      | true =>
        simp only [boolEqTT, if_true]
        rw [h63, Nat.add_mul_div_right _ _ (by positivity : (0:Nat) < 2 ^ l.length),
          Nat.div_div_eq_div_mul, ← pow_succ']
    rw [hsplit]
    have hval : bitsVal (c :: l) = (if c then 1 else 0) + 2 * bitsVal l := rfl
    have hlc : (c :: l).length = l.length + 1 := rfl
    rw [hval, hlc]
    have hpow : (2 : Nat) ^ (64 - l.length) = 2 * 2 ^ (64 - (l.length + 1)) := by
      rw [← pow_succ']
      congr 1
      omega
    have hpow2 : (2 : Nat) ^ (63 - l.length) = 2 ^ (64 - (l.length + 1)) := by
      congr 1
      omega
    rw [hpow, hpow2]
    cases c <;> simp only [boolEqTT, boolEqFT, if_true, if_false] <;> ring

theorem bitsValM_append : ∀ (P Q : List Bool),
    bitsValM (P ++ Q) = bitsValM P * 2 ^ Q.length + bitsValM Q := by
  intro P
  induction P with
  | nil => intro Q; simp [bitsValM]
  | cons c l ih =>
    intro Q
    rw [List.cons_append, bitsValM, bitsValM, ih]
    simp only [List.length_append]
    cases c <;> simp only [boolEqTT, boolEqFT, if_true, if_false] <;> ring

theorem bitsVal_append : ∀ (P Q : List Bool),
    bitsVal (P ++ Q) = bitsVal P + 2 ^ P.length * bitsVal Q := by
  intro P
  induction P with
  | nil => intro Q; simp [bitsVal]
  | cons c l ih =>
    intro Q
    rw [List.cons_append, bitsVal, bitsVal, ih]
    simp only [List.length_cons]
    cases c <;> simp only [boolEqTT, boolEqFT, if_true, if_false] <;> ring

theorem bitsValM_reverse : ∀ (L : List Bool), bitsValM L.reverse = bitsVal L := by
  intro L
  induction L with
  | nil => rfl
  | cons c l ih =>
    rw [List.reverse_cons, bitsValM_append, ih, bitsVal]
    simp [bitsValM]
    cases c <;> simp <;> ring

theorem bitsVal_lt : ∀ (L : List Bool), bitsVal L < 2 ^ L.length := by
  intro L
  induction L with
  | nil => simp [bitsVal]
  | cons c l ih =>
    rw [bitsVal]
    have : (c :: l).length = l.length + 1 := rfl
    rw [this, pow_succ]
    cases c <;> simp <;> omega

theorem bitsValM_lt : ∀ (L : List Bool), bitsValM L < 2 ^ L.length := by
  intro L
  rw [← List.reverse_reverse L, bitsValM_reverse, List.length_reverse]
  exact bitsVal_lt L.reverse

theorem bitsValM_replicate (n : Nat) : bitsValM (List.replicate n false) = 0 := by
  induction n with
  | zero => rfl
  | succ m ih => rw [List.replicate_succ, bitsValM, ih]; simp

theorem bitsVal_replicate (n : Nat) : bitsVal (List.replicate n false) = 0 := by
  induction n with
  | zero => rfl
  | succ m ih => rw [List.replicate_succ, bitsVal, ih]; simp

theorem bitsValM_take_le (j : Nat) (B : List Bool) :
    bitsValM (B.take j) ≤ bitsValM B := by
  conv_rhs => rw [← List.take_append_drop j B]
  rw [bitsValM_append]
  have h1 : bitsValM (B.take j) ≤ bitsValM (B.take j) * 2 ^ (B.drop j).length :=
    Nat.le_mul_of_pos_right _ (by positivity)
  omega

theorem bitsValM_take_zpad (z k : Nat) (B T : List Bool) (hB : B.length = k) :
    bitsValM ((List.replicate z false ++ (B ++ T)).take k) ≤ bitsValM B := by
  by_cases hkz : k ≤ z
  · rw [List.take_append_eq_append_take, List.take_replicate, List.length_replicate]
    have h1 : min k z = k := by omega
    have h2 : k - z = 0 := by omega
    rw [h1, h2, List.take_zero, List.append_nil, bitsValM_replicate]
    exact Nat.zero_le _
  · rw [List.take_append_eq_append_take, List.take_replicate, List.length_replicate]
    have h1 : min k z = z := by omega
    rw [h1, List.take_append_eq_append_take]
    have h2 : k - z ≤ B.length := by omega
    have h3 : k - z - B.length = 0 := by omega
    rw [h3, List.take_zero, List.append_nil, bitsValM_append, bitsValM_replicate,
      Nat.zero_mul, Nat.zero_add]
    exact bitsValM_take_le (k - z) B

theorem natBits_split : ∀ (m k d : Nat),
    natBits d (m + k) = natBits d m ++ natBits (d / 2 ^ m) k := by
  intro m
  induction m with
  | zero => intro k d; simp [natBits]
  | succ j ih =>
    intro k d
    have h1 : j + 1 + k = (j + k) + 1 := by omega
    rw [h1, natBits, natBits, ih k (d / 2), List.cons_append]
    congr 2
    rw [Nat.div_div_eq_div_mul, ← pow_succ']

theorem natBits_zero_eq : ∀ n, natBits 0 n = List.replicate n false := by
  intro n
  induction n with
  | zero => rfl
  | succ m ih => rw [natBits, List.replicate_succ, Nat.zero_div, ih]; rfl

theorem toWord_ofNat (n : Nat) : toWord n = n % 2 ^ 64 := by
  unfold toWord
  have h : ((n : Int) % (2 ^ 64 : Int)) = ((n % 2 ^ 64 : Nat) : Int) := by
    push_cast
    rfl
  rw [h]
  exact Int.toNat_ofNat _

/-! ### `take`-level stream lemmas -/

/-- `impl` on the decoding side: with enough bits available it succeeds and
consumes exactly the requested bits. -/
theorem desImpl_ok (order : ByteOrder) (bits : Nat) (sgn : Bool) (s : DecState)
    (hbl : s.bitsLeft < 8) (hav : bits ≤ (remBits order s).length) :
    ∃ v s', desImpl order bits sgn s = .ok (v, s') ∧ s'.bitsLeft < 8 ∧
      remBits order s' = (remBits order s).drop bits := by
  obtain ⟨s', h1, h2, h3⟩ := (desLoop_stream order bits 0 (2 ^ 64 - 1) s hbl).1 hav
  have hunf : desImpl order bits sgn s
      = Except.bind (desLoop order bits 0 (2 ^ 64 - 1) s)
          (fun t =>
            .ok ((if sgn then
                    (if order = .LsbFirst then t.1 >>> (wordBits - bits) else t.1) |||
                      (if order = .LsbFirst then t.2.1 ^^^ (2 ^ 64 - 1) else t.2.1)
                  else (if order = .LsbFirst then t.1 >>> (wordBits - bits) else t.1)),
                t.2.2)) := rfl
  refine ⟨(if sgn then
      (if order = .LsbFirst
        then (pushBits order 0 ((remBits order s).take bits)) >>> (wordBits - bits)
        else pushBits order 0 ((remBits order s).take bits)) |||
        (if order = .LsbFirst then (shiftN order (2 ^ 64 - 1) bits) ^^^ (2 ^ 64 - 1)
          else shiftN order (2 ^ 64 - 1) bits)
    else (if order = .LsbFirst
      then (pushBits order 0 ((remBits order s).take bits)) >>> (wordBits - bits)
      else pushBits order 0 ((remBits order s).take bits))), s', ?_, h2, h3⟩
  rw [hunf, h1, exBind_ok]

/-- `take` under passing width validation: with enough bits available it
succeeds and consumes exactly the requested bits. -/
theorem take_stream (order : ByteOrder) (szT : Nat) (sgn : Bool) (bits : Nat) (s : DecState)
    (h1 : bits ≤ 8 * szT) (h2 : szT ≤ 8) (h3 : bits ≠ 0)
    (hbl : s.bitsLeft < 8) (hav : bits ≤ (remBits order s).length) :
    ∃ v s', take order szT sgn bits s = .ok (v, s') ∧ s'.bitsLeft < 8 ∧
      remBits order s' = (remBits order s).drop bits := by
  obtain ⟨v, s', hi, hb, hr⟩ := desImpl_ok order bits sgn s hbl hav
  refine ⟨castT szT sgn v, s', ?_, hb, hr⟩
  unfold take
  rw [if_neg (by omega), if_neg (by omega), if_neg h3]
  have hunf : (do
      let (v, s') ← desImpl order bits sgn s
      .ok (castT szT sgn v, s') : Except Err (Int × DecState))
      = Except.bind (desImpl order bits sgn s)
          (fun p => .ok (castT szT sgn p.1, p.2)) := rfl
  rw [hunf, hi, exBind_ok]

/-- The unsigned 64-bit `take` used for container counts returns exactly the
`data` register folded over the first 64 stream bits. -/
theorem take_count (order : ByteOrder) (s : DecState)
    (hbl : s.bitsLeft < 8) (hav : 64 ≤ (remBits order s).length) :
    ∃ s', take order 8 false 64 s
        = .ok (((pushBits order 0 ((remBits order s).take 64) : Nat) : Int), s')
      ∧ s'.bitsLeft < 8 ∧ remBits order s' = (remBits order s).drop 64 := by
  obtain ⟨s', h1, h2, h3⟩ := (desLoop_stream order 64 0 (2 ^ 64 - 1) s hbl).1 hav
  refine ⟨s', ?_, h2, h3⟩
  have hlt : pushBits order 0 ((remBits order s).take 64) < 2 ^ 64 :=
    pushBits_lt order _ 0 (by norm_num)
  have hunf : take order 8 false 64 s
      = Except.bind (desImpl order 64 false s)
          (fun p => .ok (castT 8 false p.1, p.2)) := rfl
  have hunf2 : desImpl order 64 false s
      = Except.bind (desLoop order 64 0 (2 ^ 64 - 1) s)
          (fun t => .ok ((if order = .LsbFirst then t.1 >>> (wordBits - 64) else t.1),
            t.2.2)) := rfl
  rw [hunf, hunf2, h1, exBind_ok, exBind_ok]
  have hd : (if order = .LsbFirst
        then (pushBits order 0 ((remBits order s).take 64)) >>> (wordBits - 64)
        else pushBits order 0 ((remBits order s).take 64))
      = pushBits order 0 ((remBits order s).take 64) := by
    cases order <;> simp [wordBits]
  rw [hd]
  have hcast : castT 8 false (pushBits order 0 ((remBits order s).take 64))
      = ((pushBits order 0 ((remBits order s).take 64) : Nat) : Int) := by
    unfold castT
    rw [if_neg (by simp)]
    rw [Nat.mod_eq_of_lt (by norm_num at hlt ⊢; omega)]
  rw [hcast]

/-- Folding the stream bits that `give` emitted for `c` recovers `c`. -/
theorem pushBits_giveBits (order : ByteOrder) (c : Nat) (hc : c < 2 ^ 64) :
    pushBits order 0 (giveBits order c 64) = c := by
  cases order with
  | MsbFirst =>
    rw [giveBits, pushBits_msb _ 0 (by norm_num), List.length_reverse,
      natBits_length, bitsValM_reverse, bitsVal_natBits]
    omega
  | LsbFirst =>
    rw [giveBits, pushBits_lsb _ 0 (by norm_num) (by rw [natBits_length]),
      natBits_length, bitsVal_natBits]
    norm_num
    omega

/-- MsbFirst straddled count read: the flush-displaced tail only demotes the
significance of the count's low bits, so the read value never exceeds the
true one. -/
theorem msb_straddle (G T : List Bool) (m k z : Nat) (hG : G.length = 64)
    (hmk : m + k = 64) :
    bitsValM (G.take m ++ (List.replicate z false ++ (G.drop m ++ T)).take k)
      ≤ bitsValM G := by
  have hlen1 : (G.take m).length = m := by
    rw [List.length_take]
    omega
  have hlen2 : (G.drop m).length = k := by
    rw [List.length_drop]
    omega
  have hsecond := bitsValM_take_zpad z k (G.drop m) T hlen2
  have hlen3 : ((List.replicate z false ++ (G.drop m ++ T)).take k).length = k := by
    rw [List.length_take, List.length_append, List.length_replicate, List.length_append]
    omega
  calc bitsValM (G.take m ++ (List.replicate z false ++ (G.drop m ++ T)).take k)
      = bitsValM (G.take m) * 2 ^ k
          + bitsValM ((List.replicate z false ++ (G.drop m ++ T)).take k) := by
        rw [bitsValM_append, hlen3]
    _ ≤ bitsValM (G.take m) * 2 ^ k + bitsValM (G.drop m) := by omega
    _ = bitsValM (G.take m ++ G.drop m) := by rw [bitsValM_append, hlen2]
    _ = bitsValM G := by rw [List.take_append_drop]

/-- LsbFirst straddled count read: when the count is small enough that all
its displaced high bits are zero, the read value equals the true one. -/
theorem lsb_straddle (c m k z : Nat) (T : List Bool) (hmk : m + k = 64)
    (hc : c < 2 ^ m) :
    bitsVal ((natBits c 64).take m
      ++ (List.replicate z false ++ ((natBits c 64).drop m ++ T)).take k) = c := by
  have hsplit : natBits c 64 = natBits c m ++ List.replicate k false := by
    rw [← hmk, natBits_split, Nat.div_eq_of_lt hc, natBits_zero_eq]
  have h1 : (natBits c m).length = m := natBits_length m c
  rw [hsplit, List.take_left' h1, List.drop_left' h1]
  have h2 : (List.replicate z false ++ (List.replicate k false ++ T)).take k
      = List.replicate k false := by
    by_cases hkz : k ≤ z
    · rw [List.take_append_eq_append_take, List.take_replicate, List.length_replicate,
        min_eq_left hkz, Nat.sub_eq_zero_of_le hkz, List.take_zero, List.append_nil]
    · rw [List.take_append_eq_append_take, List.take_replicate, List.length_replicate,
        min_eq_right (by omega), List.take_append_eq_append_take, List.take_replicate,
        List.length_replicate, min_eq_left (by omega),
        Nat.sub_eq_zero_of_le (by omega : k - z ≤ k), List.take_zero, List.append_nil,
        ← List.replicate_add]
      congr 1
      omega
  rw [h2, bitsVal_append, bitsVal_replicate, bitsVal_natBits, h1,
    Nat.mod_eq_of_lt hc]
  simp

/-! ### The flush-displaced stream shape -/

theorem corrupt_length (r : Nat) (X : List Bool) (hr : r ≤ X.length) (hr8 : r < 8) :
    (corrupt r X).length = X.length + 8 - r := by
  simp only [corrupt, List.length_append, List.length_take, List.length_drop,
    List.length_replicate, List.length_cons, List.length_nil]
  omega

theorem shaped_length (r : Nat) (X rem : List Bool) (h : Shaped r X rem) :
    X.length ≤ rem.length := by
  rcases h with ⟨_, rfl⟩ | ⟨hr0, hr8, hrX, rfl⟩
  · exact Nat.le_refl _
  · rw [corrupt_length r X hrX hr8]
    omega

theorem shaped_take (r : Nat) (X rem : List Bool) (j : Nat) (h : Shaped r X rem)
    (hj : j + r ≤ X.length) : rem.take j = X.take j := by
  rcases h with ⟨_, rfl⟩ | ⟨hr0, hr8, hrX, rfl⟩
  · rfl
  · have hlen : (X.take (X.length - r)).length = X.length - r := by
      rw [List.length_take]
      omega
    rw [corrupt, List.take_append_eq_append_take, hlen,
      Nat.sub_eq_zero_of_le (by omega : j ≤ X.length - r), List.take_zero,
      List.append_nil, List.take_take, min_eq_left (by omega)]

theorem shaped_drop (r : Nat) (X rem : List Bool) (j : Nat) (h : Shaped r X rem)
    (hj : j + r ≤ X.length) : Shaped r (X.drop j) (rem.drop j) := by
  rcases h with ⟨hr, rfl⟩ | ⟨hr0, hr8, hrX, rfl⟩
  · exact Or.inl ⟨hr, rfl⟩
  · refine Or.inr ⟨hr0, hr8, by rw [List.length_drop]; omega, ?_⟩
    have hlen : (X.take (X.length - r)).length = X.length - r := by
      rw [List.length_take]
      omega
    rw [corrupt, corrupt, List.drop_append_eq_append_drop, hlen,
      Nat.sub_eq_zero_of_le (by omega : j ≤ X.length - r), List.drop_zero,
      List.length_drop]
    congr 1
    · rw [List.drop_take]
      congr 1
      omega
    · congr 2
      rw [List.drop_drop]
      congr 1
      omega

/-! ### Fixed-width decode -/

theorem giveBits_length (order : ByteOrder) (d n : Nat) :
    (giveBits order d n).length = n := by
  cases order <;> simp [giveBits, natBits_length]

theorem tyWidthList_rep (τ : Ty) : ∀ n, tyWidthList (repTyList τ n) = n * tyWidth τ := by
  intro n
  induction n with
  | zero => simp [repTyList, tyWidthList]
  | succ m ih =>
    rw [repTyList, tyWidthList, ih]
    ring

theorem fixedOkList_rep (τ : Ty) (n : Nat) (h : fixedOk τ) :
    fixedOkList (repTyList τ n) := by
  induction n with
  | zero => simp [repTyList, fixedOkList]
  | succ m ih =>
    rw [repTyList]
    exact ⟨h, ih⟩

mutual
/-- A well-formed value of a fixed-width type occupies exactly the type's
wire width. -/
theorem valBits_width (order : ByteOrder) (v : Val) (hwf : wfVal v)
    (hfix : fixedOk (tyOf v)) : (valBits order v).length = tyWidth (tyOf v) := by
  cases v with
  | uint w x => simp [valBits, tyOf, tyWidth, giveBits_length]
  | sint w x => simp [valBits, tyOf, tyWidth, giveBits_length]
  | enum sgn w x => simp [valBits, tyOf, tyWidth, giveBits_length]
  | float w p => simp [valBits, tyOf, tyWidth, giveBits_length]
  | bits sgn tw w x => simp [valBits, tyOf, tyWidth, giveBits_length]
  | spare w => simp [valBits, tyOf, tyWidth, giveBits_length]
  | vec τ es => exact hfix.elim
  | arr τ es =>
    obtain ⟨hwl, hty⟩ := hwf
    have hfl : fixedOkList (tyOfList es) := by
      rw [hty]
      rcases hfix with h0 | hτ
      · rw [h0]
        simp [repTyList, fixedOkList]
      · exact fixedOkList_rep τ _ hτ
    have h := valListBits_width_fields order es hwl hfl
    rw [valBits, h, tyOf, tyWidth, ← tyWidthList_rep, ← hty]
  | struct f0 fs =>
    obtain ⟨hw0, hwl⟩ := hwf
    obtain ⟨hf0, hfl⟩ := hfix
    rw [valBits, List.length_append, tyOf, tyWidth,
      valBits_width order f0 hw0 hf0, valListBits_width_fields order fs hwl hfl]

theorem valListBits_width_fields (order : ByteOrder) (vs : ValList) (hwf : wfList vs)
    (hfix : fixedOkList (tyOfList vs)) :
    (valListBits order vs).length = tyWidthList (tyOfList vs) := by
  cases vs with
  | nil => simp [valListBits, tyOfList, tyWidthList]
  | cons v rest =>
    obtain ⟨hv, hr⟩ := hwf
    obtain ⟨hf, hfl⟩ := hfix
    rw [valListBits, List.length_append, tyOfList, tyWidthList,
      valBits_width order v hv hf, valListBits_width_fields order rest hr hfl]
end

mutual
/-- A well-formed value narrower than a count field has a fixed-width type:
no length-prefixed container fits inside it. -/
theorem small_fixedOk (order : ByteOrder) (v : Val) (hwf : wfVal v)
    (hsm : (valBits order v).length < 64) : fixedOk (tyOf v) := by
  cases v with
  | uint w x => exact hwf.1
  | sint w x => exact hwf.1
  | enum sgn w x => exact hwf.1
  | float w p => exact hwf.1
  | bits sgn tw w x => exact ⟨hwf.1, hwf.2.1, hwf.2.2.1⟩
  | spare w => exact hwf
  | vec τ es =>
    exfalso
    rw [valBits, List.length_append, giveBits_length] at hsm
    omega
  | arr τ es =>
    cases es with
    | nil => exact Or.inl rfl
    | cons e rest =>
      obtain ⟨hwl, hty⟩ := hwf
      have hτ : tyOf e = τ := by
        rw [ValList.length] at hty
        simp only [tyOfList, repTyList] at hty
        injection hty
      refine Or.inr ?_
      rw [← hτ]
      refine small_fixedOk order e hwl.1 ?_
      rw [valBits] at hsm
      have : (valListBits order (.cons e rest)).length
          = (valBits order e).length + (valListBits order rest).length := by
        rw [valListBits, List.length_append]
      omega
  | struct f0 fs =>
    obtain ⟨hw0, hwl⟩ := hwf
    rw [valBits, List.length_append] at hsm
    exact ⟨small_fixedOk order f0 hw0 (by omega),
      small_fixedOkList order fs hwl (by omega)⟩

theorem small_fixedOkList (order : ByteOrder) (vs : ValList) (hwf : wfList vs)
    (hsm : (valListBits order vs).length < 64) : fixedOkList (tyOfList vs) := by
  cases vs with
  | nil => exact True.intro
  | cons v rest =>
    obtain ⟨hv, hr⟩ := hwf
    rw [valListBits, List.length_append] at hsm
    exact ⟨small_fixedOk order v hv (by omega),
      small_fixedOkList order rest hr (by omega)⟩
end

/-- Decoding a fixed count of elements each of which decodes with a fixed
consumption. -/
theorem desCountV_fixed_of (order : ByteOrder)
    (f : DecState → Except Err (Val × DecState)) (w : Nat)
    (hf : ∀ s, s.bitsLeft < 8 → w ≤ (remBits order s).length →
      ∃ v s', f s = .ok (v, s') ∧ s'.bitsLeft < 8 ∧
        remBits order s' = (remBits order s).drop w) :
    ∀ c s, s.bitsLeft < 8 → c * w ≤ (remBits order s).length →
      ∃ vs s', desCountV f c s = .ok (vs, s') ∧ s'.bitsLeft < 8 ∧
        remBits order s' = (remBits order s).drop (c * w) := by
  intro c
  induction c with
  | zero =>
    intro s hb _
    exact ⟨.nil, s, rfl, hb, by simp⟩
  | succ n ih =>
    intro s hb hav
    have hmul : (n + 1) * w = n * w + w := by ring
    obtain ⟨v, s1, h1, hb1, hr1⟩ := hf s hb (by omega)
    obtain ⟨vs, s2, h2, hb2, hr2⟩ := ih s1 hb1 (by rw [hr1, List.length_drop]; omega)
    refine ⟨.cons v vs, s2, ?_, hb2, ?_⟩
    · have hunf : desCountV f (n + 1) s = Except.bind (f s) (fun p =>
          Except.bind (desCountV f n p.2) (fun q => .ok (.cons p.1 q.1, q.2))) := rfl
      rw [hunf, h1, exBind_ok, h2, exBind_ok]
    · rw [hr2, hr1, List.drop_drop]
      congr 1
      omega

mutual
/-- The decode of a fixed-width type succeeds on any stream holding enough
bits and consumes exactly the type's width. -/
theorem desTy_fixed (order : ByteOrder) (τ : Ty) (hfix : fixedOk τ) :
    ∀ s, s.bitsLeft < 8 → tyWidth τ ≤ (remBits order s).length →
      ∃ v s', desTy order τ s = .ok (v, s') ∧ s'.bitsLeft < 8 ∧
        remBits order s' = (remBits order s).drop (tyWidth τ) := by
  cases τ with
  | uint w =>
    intro s hb hav
    obtain ⟨v, s', ht, hb', hr⟩ := take_stream order (w / 8) false w s
      (intW_facts w hfix).1 (intW_facts w hfix).2.1 (intW_facts w hfix).2.2.1 hb hav
    refine ⟨.uint w v.toNat, s', ?_, hb', hr⟩
    have hunf : desTy order (.uint w) s = Except.bind (take order (w / 8) false w s)
        (fun p => .ok (.uint w p.1.toNat, p.2)) := rfl
    rw [hunf, ht, exBind_ok]
  | sint w =>
    intro s hb hav
    obtain ⟨v, s', ht, hb', hr⟩ := take_stream order (w / 8) true w s
      (intW_facts w hfix).1 (intW_facts w hfix).2.1 (intW_facts w hfix).2.2.1 hb hav
    refine ⟨.sint w v, s', ?_, hb', hr⟩
    have hunf : desTy order (.sint w) s = Except.bind (take order (w / 8) true w s)
        (fun p => .ok (.sint w p.1, p.2)) := rfl
    rw [hunf, ht, exBind_ok]
  | enum sgn w =>
    intro s hb hav
    obtain ⟨v, s', ht, hb', hr⟩ := take_stream order (w / 8) sgn w s
      (intW_facts w hfix).1 (intW_facts w hfix).2.1 (intW_facts w hfix).2.2.1 hb hav
    refine ⟨.enum sgn w v, s', ?_, hb', hr⟩
    have hunf : desTy order (.enum sgn w) s = Except.bind (take order (w / 8) sgn w s)
        (fun p => .ok (.enum sgn w p.1, p.2)) := rfl
    rw [hunf, ht, exBind_ok]
  | float w =>
    intro s hb hav
    have hiw : intW w := by
      rcases hfix with rfl | rfl | rfl <;> simp [intW]
    obtain ⟨v, s', ht, hb', hr⟩ := take_stream order (w / 8) false w s
      (intW_facts w hiw).1 (intW_facts w hiw).2.1 (intW_facts w hiw).2.2.1 hb hav
    refine ⟨.float w v.toNat, s', ?_, hb', hr⟩
    have hunf : desTy order (.float w) s = Except.bind (take order (w / 8) false w s)
        (fun p => .ok (.float w p.1.toNat, p.2)) := rfl
    rw [hunf, ht, exBind_ok]
  | bits sgn tw w =>
    intro s hb hav
    obtain ⟨htw, hw1, hw2⟩ := hfix
    have h8 := intW_facts tw htw
    obtain ⟨v, s', ht, hb', hr⟩ := take_stream order (tw / 8) sgn w s
      (by omega) (by omega) (by omega) hb hav
    refine ⟨.bits sgn tw w v, s', ?_, hb', hr⟩
    have hunf : desTy order (.bits sgn tw w) s
        = Except.bind (take order (tw / 8) sgn w s)
          (fun p => .ok (.bits sgn tw w p.1, p.2)) := rfl
    rw [hunf, ht, exBind_ok]
  | spare w =>
    intro s hb hav
    obtain ⟨hw1, hw2⟩ := hfix
    obtain ⟨v, s', ht, hb', hr⟩ := take_stream order 8 false w s
      (by omega) (by omega) (by omega) hb hav
    refine ⟨.spare w, s', ?_, hb', hr⟩
    have hunf : desTy order (.spare w) s = Except.bind (take order 8 false w s)
        (fun p => .ok (.spare w, p.2)) := rfl
    rw [hunf, ht, exBind_ok]
  | vec τ =>
    intro s _ _
    exact hfix.elim
  | arr τ n =>
    intro s hb hav
    rcases hfix with h0 | hτ
    · subst h0
      refine ⟨.arr τ .nil, s, rfl, hb, ?_⟩
      have h0w : tyWidth (Ty.arr τ 0) = 0 := by
        rw [tyWidth]
        ring
      rw [h0w, List.drop_zero]
    · obtain ⟨vs, s', hc, hb', hr⟩ := desCountV_fixed_of order (desTy order τ)
        (tyWidth τ) (fun s hb hav => desTy_fixed order τ hτ s hb hav) n s hb
        (by rw [tyWidth] at hav; exact hav)
      refine ⟨.arr τ vs, s', ?_, hb', by rw [hr, tyWidth]⟩
      have hunf : desTy order (.arr τ n) s
          = Except.bind (desCountV (desTy order τ) n s)
            (fun p => .ok (.arr τ p.1, p.2)) := rfl
      rw [hunf, hc, exBind_ok]
  | struct t0 ts =>
    intro s hb hav
    rw [tyWidth] at hav
    obtain ⟨v0, s1, h0, hb1, hr1⟩ := desTy_fixed order t0 hfix.1 s hb (by omega)
    obtain ⟨vs, s2, h2, hb2, hr2⟩ := desFields_fixed order ts hfix.2 s1 hb1
      (by rw [hr1, List.length_drop]; omega)
    refine ⟨.struct v0 vs, s2, ?_, hb2, ?_⟩
    · have hunf : desTy order (.struct t0 ts) s
          = Except.bind (desTy order t0 s) (fun p =>
              Except.bind (desFields order ts p.2)
                (fun q => .ok (.struct p.1 q.1, q.2))) := rfl
      rw [hunf, h0, exBind_ok, h2, exBind_ok]
    · rw [hr2, hr1, List.drop_drop, tyWidth]

theorem desFields_fixed (order : ByteOrder) (ts : TyList) (hfix : fixedOkList ts) :
    ∀ s, s.bitsLeft < 8 → tyWidthList ts ≤ (remBits order s).length →
      ∃ vs s', desFields order ts s = .ok (vs, s') ∧ s'.bitsLeft < 8 ∧
        remBits order s' = (remBits order s).drop (tyWidthList ts) := by
  cases ts with
  | nil =>
    intro s hb _
    exact ⟨.nil, s, rfl, hb, by simp [tyWidthList]⟩
  | cons t rest =>
    intro s hb hav
    rw [tyWidthList] at hav
    obtain ⟨v0, s1, h0, hb1, hr1⟩ := desTy_fixed order t hfix.1 s hb (by omega)
    obtain ⟨vs, s2, h2, hb2, hr2⟩ := desFields_fixed order rest hfix.2 s1 hb1
      (by rw [hr1, List.length_drop]; omega)
    refine ⟨.cons v0 vs, s2, ?_, hb2, ?_⟩
    · have hunf : desFields order (.cons t rest) s
          = Except.bind (desTy order t s) (fun p =>
              Except.bind (desFields order rest p.2)
                (fun q => .ok (.cons p.1 q.1, q.2))) := rfl
      rw [hunf, h0, exBind_ok, h2, exBind_ok]
    · rw [hr2, hr1, List.drop_drop, tyWidthList]
end

/-! ### Surplus input does not disturb a successful decode -/

theorem desLoop_mono (order : ByteOrder) :
    ∀ bits data mask s t, desLoop order bits data mask s = .ok t →
      ∀ e, desLoop order bits data mask (s.addInput e)
        = .ok (t.1, t.2.1, t.2.2.addInput e) := by
  intro bits
  induction bits with
  | zero =>
    intro data mask s t h e
    replace h : (Except.ok (data, mask, s) : Except Err (Nat × Nat × DecState)) = .ok t := h
    rw [← Except.ok.inj h]
    rfl
  | succ n ih =>
    intro data mask s t h e
    obtain ⟨byte, m, input⟩ := s
    cases m with
    | zero =>
      cases input with
      | nil =>
        rw [desLoop_empty] at h
        exact absurd h (by simp)
      | cons b rest =>
        have hadd : (⟨byte, 0, b :: rest⟩ : DecState).addInput e
            = ⟨byte, 0, b :: (rest ++ e)⟩ := rfl
        cases order with
        | MsbFirst =>
          rw [desLoop_fetch_msb] at h
          rw [hadd, desLoop_fetch_msb]
          exact ih _ _ _ _ h e
        | LsbFirst =>
          rw [desLoop_fetch_lsb] at h
          rw [hadd, desLoop_fetch_lsb]
          exact ih _ _ _ _ h e
    | succ m' =>
      have hadd : (⟨byte, m' + 1, input⟩ : DecState).addInput e
          = ⟨byte, m' + 1, input ++ e⟩ := rfl
      cases order with
      | MsbFirst =>
        rw [desLoop_mid_msb] at h
        rw [hadd, desLoop_mid_msb]
        exact ih _ _ _ _ h e
      | LsbFirst =>
        rw [desLoop_mid_lsb] at h
        rw [hadd, desLoop_mid_lsb]
        exact ih _ _ _ _ h e

theorem desImpl_mono (order : ByteOrder) (bits : Nat) (sgn : Bool) (s : DecState)
    (v : Nat) (s₁ : DecState) (h : desImpl order bits sgn s = .ok (v, s₁)) (e : List Nat) :
    desImpl order bits sgn (s.addInput e) = .ok (v, s₁.addInput e) := by
  have hunf : ∀ s₀ : DecState, desImpl order bits sgn s₀
      = Except.bind (desLoop order bits 0 (2 ^ 64 - 1) s₀)
          (fun t =>
            .ok ((if sgn then
                    (if order = .LsbFirst then t.1 >>> (wordBits - bits) else t.1) |||
                      (if order = .LsbFirst then t.2.1 ^^^ (2 ^ 64 - 1) else t.2.1)
                  else (if order = .LsbFirst then t.1 >>> (wordBits - bits) else t.1)),
                t.2.2)) := fun _ => rfl
  rw [hunf] at h
  cases hdl : desLoop order bits 0 (2 ^ 64 - 1) s with
  | error err =>
    rw [hdl, exBind_err] at h
    exact absurd h (by simp)
  | ok t =>
    rw [hdl, exBind_ok] at h
    have hp := Except.ok.inj h
    injection hp with hv hs
    rw [hunf, desLoop_mono order bits 0 (2 ^ 64 - 1) s t hdl e, exBind_ok, ← hv, ← hs]

theorem take_mono (order : ByteOrder) (szT : Nat) (sgn : Bool) (bits : Nat) (s : DecState)
    (v : Int) (s₁ : DecState) (h : take order szT sgn bits s = .ok (v, s₁)) (e : List Nat) :
    take order szT sgn bits (s.addInput e) = .ok (v, s₁.addInput e) := by
  unfold take at h ⊢
  by_cases h1 : bits > 8 * szT
  · rw [if_pos h1] at h
    exact absurd h (by simp)
  rw [if_neg h1] at h ⊢
  by_cases h2 : szT > 8
  · rw [if_pos h2] at h
    exact absurd h (by simp)
  rw [if_neg h2] at h ⊢
  by_cases h3 : bits = 0
  · rw [if_pos h3] at h
    exact absurd h (by simp)
  rw [if_neg h3] at h ⊢
  have hunf : ∀ s₀ : DecState, (do
        let (v, s') ← desImpl order bits sgn s₀
        .ok (castT szT sgn v, s') : Except Err (Int × DecState))
      = Except.bind (desImpl order bits sgn s₀)
          (fun p => .ok (castT szT sgn p.1, p.2)) := fun _ => rfl
  rw [hunf] at h ⊢
  cases hdi : desImpl order bits sgn s with
  | error err =>
    rw [hdi, exBind_err] at h
    exact absurd h (by simp)
  | ok q =>
    rw [hdi, exBind_ok] at h
    have hp := Except.ok.inj h
    injection hp with hv hs
    rw [desImpl_mono order bits sgn s q.1 q.2 (by rw [hdi]) e, exBind_ok, ← hv, ← hs]

theorem desCountV_mono_of (f : DecState → Except Err (Val × DecState))
    (hf : ∀ s p e, f s = .ok p → f (s.addInput e) = .ok (p.1, p.2.addInput e)) :
    ∀ c s p e, desCountV f c s = .ok p →
      desCountV f c (s.addInput e) = .ok (p.1, p.2.addInput e) := by
  intro c
  induction c with
  | zero =>
    intro s p e h
    replace h : (Except.ok (ValList.nil, s) : Except Err (ValList × DecState)) = .ok p := h
    rw [show desCountV f 0 (s.addInput e) = .ok (.nil, s.addInput e) from rfl,
      ← Except.ok.inj h]
  | succ n ih =>
    intro s p e h
    have hunf : ∀ s₀, desCountV f (n + 1) s₀ = Except.bind (f s₀) (fun q =>
        Except.bind (desCountV f n q.2) (fun q2 => .ok (.cons q.1 q2.1, q2.2))) :=
      fun _ => rfl
    rw [hunf] at h
    cases h1 : f s with
    | error err =>
      rw [h1, exBind_err] at h
      exact absurd h (by simp)
    | ok q =>
      rw [h1, exBind_ok] at h
      cases h2 : desCountV f n q.2 with
      | error err =>
        rw [h2, exBind_err] at h
        exact absurd h (by simp)
      | ok q2 =>
        rw [h2, exBind_ok] at h
        rw [hunf, hf s q e h1, exBind_ok, ih q.2 q2 e h2, exBind_ok, ← Except.ok.inj h]

theorem leaf_mono (order : ByteOrder) (szT : Nat) (sgn : Bool) (bits : Nat)
    (mk : Int → Val) (s : DecState) (p : Val × DecState) (e : List Nat)
    (h : Except.bind (take order szT sgn bits s) (fun q => .ok (mk q.1, q.2)) = .ok p) :
    Except.bind (take order szT sgn bits (s.addInput e)) (fun q => .ok (mk q.1, q.2))
      = .ok (p.1, p.2.addInput e) := by
  cases h1 : take order szT sgn bits s with
  | error err =>
    rw [h1, exBind_err] at h
    exact absurd h (by simp)
  | ok q =>
    rw [h1, exBind_ok] at h
    rw [take_mono order szT sgn bits s q.1 q.2 (by rw [h1]) e, exBind_ok,
      ← Except.ok.inj h]

mutual
/-- A successful decode is undisturbed by surplus bytes appended to the
caller's buffer: same value, same final position, surplus untouched. -/
theorem desTy_mono (order : ByteOrder) (τ : Ty) :
    ∀ s p e, desTy order τ s = .ok p →
      desTy order τ (s.addInput e) = .ok (p.1, p.2.addInput e) := by
  cases τ with
  | uint w =>
    intro s p e h
    exact leaf_mono order (w / 8) false w (fun x => .uint w x.toNat) s p e h
  | sint w =>
    intro s p e h
    exact leaf_mono order (w / 8) true w (fun x => .sint w x) s p e h
  | enum sgn w =>
    intro s p e h
    exact leaf_mono order (w / 8) sgn w (fun x => .enum sgn w x) s p e h
  | float w =>
    intro s p e h
    exact leaf_mono order (w / 8) false w (fun x => .float w x.toNat) s p e h
  | bits sgn tw w =>
    intro s p e h
    exact leaf_mono order (tw / 8) sgn w (fun x => .bits sgn tw w x) s p e h
  | spare w =>
    intro s p e h
    exact leaf_mono order 8 false w (fun _ => .spare w) s p e h
  | vec τ =>
    intro s p e h
    have hunf : ∀ s₀, desTy order (.vec τ) s₀ = Except.bind (take order 8 false 64 s₀)
        (fun q => Except.bind (desCountV (desTy order τ) q.1.toNat q.2)
          (fun q2 => .ok (.vec τ q2.1, q2.2))) := fun _ => rfl
    rw [hunf] at h ⊢
    cases h1 : take order 8 false 64 s with
    | error err =>
      rw [h1, exBind_err] at h
      exact absurd h (by simp)
    | ok q =>
      rw [h1, exBind_ok] at h
      cases h2 : desCountV (desTy order τ) q.1.toNat q.2 with
      | error err =>
        rw [h2, exBind_err] at h
        exact absurd h (by simp)
      | ok q2 =>
        rw [h2, exBind_ok] at h
        rw [take_mono order 8 false 64 s q.1 q.2 (by rw [h1]) e, exBind_ok,
          desCountV_mono_of (desTy order τ)
            (fun s p e h => desTy_mono order τ s p e h) q.1.toNat q.2 q2 e h2,
          exBind_ok, ← Except.ok.inj h]
  | arr τ n =>
    intro s p e h
    have hunf : ∀ s₀, desTy order (.arr τ n) s₀
        = Except.bind (desCountV (desTy order τ) n s₀)
          (fun q => .ok (.arr τ q.1, q.2)) := fun _ => rfl
    rw [hunf] at h ⊢
    cases h1 : desCountV (desTy order τ) n s with
    | error err =>
      rw [h1, exBind_err] at h
      exact absurd h (by simp)
    | ok q =>
      rw [h1, exBind_ok] at h
      rw [desCountV_mono_of (desTy order τ)
          (fun s p e h => desTy_mono order τ s p e h) n s q e h1,
        exBind_ok, ← Except.ok.inj h]
  | struct t0 ts =>
    intro s p e h
    have hunf : ∀ s₀, desTy order (.struct t0 ts) s₀
        = Except.bind (desTy order t0 s₀) (fun q =>
            Except.bind (desFields order ts q.2)
              (fun q2 => .ok (.struct q.1 q2.1, q2.2))) := fun _ => rfl
    rw [hunf] at h ⊢
    cases h1 : desTy order t0 s with
    | error err =>
      rw [h1, exBind_err] at h
      exact absurd h (by simp)
    | ok q =>
      rw [h1, exBind_ok] at h
      cases h2 : desFields order ts q.2 with
      | error err =>
        rw [h2, exBind_err] at h
        exact absurd h (by simp)
      | ok q2 =>
        rw [h2, exBind_ok] at h
        rw [desTy_mono order t0 s q e h1, exBind_ok,
          desFields_mono order ts q.2 q2 e h2, exBind_ok, ← Except.ok.inj h]

theorem desFields_mono (order : ByteOrder) (ts : TyList) :
    ∀ s p e, desFields order ts s = .ok p →
      desFields order ts (s.addInput e) = .ok (p.1, p.2.addInput e) := by
  cases ts with
  | nil =>
    intro s p e h
    replace h : (Except.ok (ValList.nil, s) : Except Err (ValList × DecState)) = .ok p := h
    rw [show desFields order .nil (s.addInput e) = .ok (.nil, s.addInput e) from rfl,
      ← Except.ok.inj h]
  | cons t rest =>
    intro s p e h
    have hunf : ∀ s₀, desFields order (.cons t rest) s₀
        = Except.bind (desTy order t s₀) (fun q =>
            Except.bind (desFields order rest q.2)
              (fun q2 => .ok (.cons q.1 q2.1, q2.2))) := fun _ => rfl
    rw [hunf] at h ⊢
    cases h1 : desTy order t s with
    | error err =>
      rw [h1, exBind_err] at h
      exact absurd h (by simp)
    | ok q =>
      rw [h1, exBind_ok] at h
      cases h2 : desFields order rest q.2 with
      | error err =>
        rw [h2, exBind_err] at h
        exact absurd h (by simp)
      | ok q2 =>
        rw [h2, exBind_ok] at h
        rw [desTy_mono order t s q e h1, exBind_ok,
          desFields_mono order rest q.2 q2 e h2, exBind_ok, ← Except.ok.inj h]
end

/-! ### Decoding against a flush-displaced stream -/

/-- A single `take` of exactly the leading value's width against a shaped
stream: it succeeds, and the remaining stream is shaped for the rest. -/
theorem leaf_shaped (order : ByteOrder) (szT : Nat) (sgn : Bool) (w : Nat) (s : DecState)
    (V F : List Bool) (r : Nat)
    (h1 : w ≤ 8 * szT) (h2 : szT ≤ 8) (h3 : w ≠ 0) (hV : V.length = w)
    (hb : s.bitsLeft < 8) (hsh : Shaped r (V ++ F) (remBits order s)) :
    ∃ v s', take order szT sgn w s = .ok (v, s') ∧ s'.bitsLeft < 8 ∧
      ((r ≤ F.length ∧ Shaped r F (remBits order s'))
        ∨ (F.length < r ∧ F.length + (8 - r) ≤ (remBits order s').length)) := by
  have hXlen : (V ++ F).length = w + F.length := by
    rw [List.length_append, hV]
  have hle : w ≤ (remBits order s).length := by
    have := shaped_length r (V ++ F) _ hsh
    omega
  obtain ⟨v, s', ht, hb', hr⟩ := take_stream order szT sgn w s h1 h2 h3 hb hle
  refine ⟨v, s', ht, hb', ?_⟩
  by_cases hc : r ≤ F.length
  · left
    refine ⟨hc, ?_⟩
    have hd := shaped_drop r (V ++ F) _ w hsh (by omega)
    rw [List.drop_left' hV] at hd
    rw [hr]
    exact hd
  · right
    refine ⟨by omega, ?_⟩
    rw [hr, List.length_drop]
    rcases hsh with ⟨hr0, hrem⟩ | ⟨hr0, hr8, hrX, hrem⟩
    · omega
    · have hL : (remBits order s).length = (V ++ F).length + 8 - r := by
        rw [hrem, corrupt_length r _ hrX hr8]
      omega

/-- Decoding `n` elements of a homogeneous type is decoding the `n`-fold
member list. -/
theorem desCountV_eq_desFields (order : ByteOrder) (τ : Ty) :
    ∀ n s, desCountV (desTy order τ) n s = desFields order (repTyList τ n) s := by
  intro n
  induction n with
  | zero => intro s; rfl
  | succ m ih =>
    intro s
    have hunf1 : desCountV (desTy order τ) (m + 1) s
        = Except.bind (desTy order τ s) (fun q =>
            Except.bind (desCountV (desTy order τ) m q.2)
              (fun q2 => .ok (.cons q.1 q2.1, q2.2))) := rfl
    have hunf2 : desFields order (repTyList τ (m + 1)) s
        = Except.bind (desTy order τ s) (fun q =>
            Except.bind (desFields order (repTyList τ m) q.2)
              (fun q2 => .ok (.cons q.1 q2.1, q2.2))) := rfl
    rw [hunf1, hunf2]
    have hfun : (fun (q : Val × DecState) =>
          Except.bind (desCountV (desTy order τ) m q.2)
            (fun q2 => (.ok (.cons q.1 q2.1, q2.2) : Except Err (ValList × DecState))))
        = (fun q =>
          Except.bind (desFields order (repTyList τ m) q.2)
            (fun q2 => .ok (.cons q.1 q2.1, q2.2))) := by
      funext q
      rw [ih]
    rw [hfun]

/-- Decoding the 64-bit element count whose bits straddle the flush-displaced
final byte: the decode succeeds, consumes 64 bits, and the value it returns
never exceeds the true count under MsbFirst, and equals it under LsbFirst
whenever the count is small. -/
theorem count_straddle (order : ByteOrder) (c : Nat) (hc : c < 2 ^ 64)
    (E F : List Bool) (r : Nat) (hr0 : 0 < r) (hr8 : r < 8)
    (hEF : E.length + F.length < r) (s : DecState) (hb : s.bitsLeft < 8)
    (hrem : remBits order s
      = corrupt r (giveBits order (toWord (c : Int)) 64 ++ (E ++ F))) :
    ∃ n' s₁, take order 8 false 64 s = .ok (((n' : Nat) : Int), s₁) ∧ s₁.bitsLeft < 8 ∧
      remBits order s₁ = (remBits order s).drop 64 ∧
      (order = .MsbFirst → n' ≤ c) ∧
      (order = .LsbFirst → c < 2 ^ 57 → n' = c) := by
  have hGc : toWord (c : Int) = c := by
    rw [toWord_ofNat]
    exact Nat.mod_eq_of_lt hc
  rw [hGc] at hrem
  have hGlen : (giveBits order c 64).length = 64 := giveBits_length order c 64
  have hXlen : (giveBits order c 64 ++ (E ++ F)).length
      = 64 + (E.length + F.length) := by
    rw [List.length_append, List.length_append, hGlen]
  have hrlen : (remBits order s).length
      = (giveBits order c 64 ++ (E ++ F)).length + 8 - r := by
    rw [hrem, corrupt_length _ _ (by omega) hr8]
  have h64 : 64 ≤ (remBits order s).length := by omega
  obtain ⟨s₁, hcnt, hb₁, hr₁⟩ := take_count order s hb h64
  have hm : (giveBits order c 64 ++ (E ++ F)).length - r < 64 := by omega
  have hm64 : (giveBits order c 64 ++ (E ++ F)).length - r ≤ 64 := by omega
  have hR : (remBits order s).take 64
      = (giveBits order c 64).take ((giveBits order c 64 ++ (E ++ F)).length - r)
        ++ (List.replicate (7 - r) false
            ++ ((giveBits order c 64).drop ((giveBits order c 64 ++ (E ++ F)).length - r)
              ++ ((E ++ F) ++ [false]))).take
          (64 - ((giveBits order c 64 ++ (E ++ F)).length - r)) := by
    rw [hrem, corrupt, List.take_append_eq_append_take, List.take_take]
    have hlen1 : ((giveBits order c 64 ++ (E ++ F)).take
        ((giveBits order c 64 ++ (E ++ F)).length - r)).length
        = (giveBits order c 64 ++ (E ++ F)).length - r := by
      rw [List.length_take]
      omega
    rw [hlen1, min_eq_right hm64]
    have htm : (giveBits order c 64 ++ (E ++ F)).take
          ((giveBits order c 64 ++ (E ++ F)).length - r)
        = (giveBits order c 64).take ((giveBits order c 64 ++ (E ++ F)).length - r) := by
      rw [List.take_append_eq_append_take,
        Nat.sub_eq_zero_of_le (by omega : (giveBits order c 64 ++ (E ++ F)).length - r
          ≤ (giveBits order c 64).length),
        List.take_zero, List.append_nil]
    have hdm : (giveBits order c 64 ++ (E ++ F)).drop
          ((giveBits order c 64 ++ (E ++ F)).length - r)
        = (giveBits order c 64).drop ((giveBits order c 64 ++ (E ++ F)).length - r)
          ++ (E ++ F) := by
      rw [List.drop_append_eq_append_drop,
        Nat.sub_eq_zero_of_le (by omega : (giveBits order c 64 ++ (E ++ F)).length - r
          ≤ (giveBits order c 64).length),
        List.drop_zero]
    rw [htm, hdm, List.append_assoc]
  refine ⟨pushBits order 0 ((remBits order s).take 64), s₁, hcnt, hb₁, hr₁, ?_, ?_⟩
  · intro ho
    subst ho
    have hGdef : giveBits .MsbFirst c 64 = (natBits c 64).reverse := rfl
    have hGval : bitsValM (giveBits .MsbFirst c 64) = c := by
      rw [hGdef, bitsValM_reverse, bitsVal_natBits]
      exact Nat.mod_eq_of_lt hc
    have hbd := msb_straddle (giveBits .MsbFirst c 64) ((E ++ F) ++ [false])
      ((giveBits .MsbFirst c 64 ++ (E ++ F)).length - r)
      (64 - ((giveBits .MsbFirst c 64 ++ (E ++ F)).length - r))
      (7 - r) hGlen (by omega)
    rw [hR, pushBits_msb _ 0 (by norm_num), Nat.zero_mul, Nat.zero_add]
    have hmle := Nat.mod_le (bitsValM ((giveBits ByteOrder.MsbFirst c 64).take
        ((giveBits ByteOrder.MsbFirst c 64 ++ (E ++ F)).length - r)
      ++ (List.replicate (7 - r) false
          ++ ((giveBits ByteOrder.MsbFirst c 64).drop
              ((giveBits ByteOrder.MsbFirst c 64 ++ (E ++ F)).length - r)
            ++ ((E ++ F) ++ [false]))).take
        (64 - ((giveBits ByteOrder.MsbFirst c 64 ++ (E ++ F)).length - r))))
      (2 ^ 64)
    omega
  · intro ho hc57
    subst ho
    have hGdef : giveBits .LsbFirst c 64 = natBits c 64 := rfl
    have hm57 : 57 ≤ (giveBits ByteOrder.LsbFirst c 64 ++ (E ++ F)).length - r := by
      omega
    have hcm : c < 2 ^ ((giveBits ByteOrder.LsbFirst c 64 ++ (E ++ F)).length - r) := by
      calc c < 2 ^ 57 := hc57
        _ ≤ 2 ^ ((giveBits ByteOrder.LsbFirst c 64 ++ (E ++ F)).length - r) :=
          Nat.pow_le_pow_right (by norm_num) hm57
    have hval := lsb_straddle c ((giveBits ByteOrder.LsbFirst c 64 ++ (E ++ F)).length - r)
      (64 - ((giveBits ByteOrder.LsbFirst c 64 ++ (E ++ F)).length - r))
      (7 - r) ((E ++ F) ++ [false]) (by omega) hcm
    rw [← hGdef] at hval
    have hRlen : ((remBits ByteOrder.LsbFirst s).take 64).length = 64 := by
      rw [List.length_take]
      omega
    have hRlen2 : ((giveBits ByteOrder.LsbFirst c 64).take
          ((giveBits ByteOrder.LsbFirst c 64 ++ (E ++ F)).length - r)
        ++ (List.replicate (7 - r) false
            ++ ((giveBits ByteOrder.LsbFirst c 64).drop
                ((giveBits ByteOrder.LsbFirst c 64 ++ (E ++ F)).length - r)
              ++ ((E ++ F) ++ [false]))).take
          (64 - ((giveBits ByteOrder.LsbFirst c 64 ++ (E ++ F)).length - r))).length
        = 64 := by
      rw [← hR]
      exact hRlen
    rw [hR, pushBits_lsb _ 0 (by norm_num) (le_of_eq hRlen2), hRlen2, Nat.sub_self,
      pow_zero, Nat.one_mul, Nat.zero_shiftRight, Nat.zero_add]
    exact hval

mutual
/-- Decoding a well-formed value's own serialized bits — possibly with
further true bits after them and possibly flush-displaced at the very end —
succeeds and leaves a stream of the same shape for what follows (or, when
the displaced tail has been reached, enough remaining bits for the at most
seven displaced true bits plus padding). -/
theorem desTy_shaped (order : ByteOrder) (v : Val) : wfVal v →
    ∀ r F s, s.bitsLeft < 8 →
      Shaped r (valBits order v ++ F) (remBits order s) →
      ∃ w s', desTy order (tyOf v) s = .ok (w, s') ∧ s'.bitsLeft < 8 ∧
        ((r ≤ F.length ∧ Shaped r F (remBits order s'))
          ∨ (F.length < r ∧ F.length + (8 - r) ≤ (remBits order s').length)) := by
  cases v with
  | uint w x =>
    intro hwf r F s hb hsh
    obtain ⟨v, s', ht, hb', hdisj⟩ := leaf_shaped order (w / 8) false w s
      (giveBits order (toWord x) w) F r
      (intW_facts w hwf.1).1 (intW_facts w hwf.1).2.1 (intW_facts w hwf.1).2.2.1
      (giveBits_length order (toWord x) w) hb (by simpa only [valBits] using hsh)
    refine ⟨.uint w v.toNat, s', ?_, hb', hdisj⟩
    have hunf : desTy order (.uint w) s
        = Except.bind (take order (w / 8) false w s)
          (fun q => .ok (.uint w q.1.toNat, q.2)) := rfl
    simp only [tyOf]
    rw [hunf, ht, exBind_ok]
  | sint w x =>
    intro hwf r F s hb hsh
    obtain ⟨v, s', ht, hb', hdisj⟩ := leaf_shaped order (w / 8) true w s
      (giveBits order (toWord x) w) F r
      (intW_facts w hwf.1).1 (intW_facts w hwf.1).2.1 (intW_facts w hwf.1).2.2.1
      (giveBits_length order (toWord x) w) hb (by simpa only [valBits] using hsh)
    refine ⟨.sint w v, s', ?_, hb', hdisj⟩
    have hunf : desTy order (.sint w) s
        = Except.bind (take order (w / 8) true w s)
          (fun q => .ok (.sint w q.1, q.2)) := rfl
    simp only [tyOf]
    rw [hunf, ht, exBind_ok]
  | enum sgn w x =>
    intro hwf r F s hb hsh
    obtain ⟨v, s', ht, hb', hdisj⟩ := leaf_shaped order (w / 8) sgn w s
      (giveBits order (toWord x) w) F r
      (intW_facts w hwf.1).1 (intW_facts w hwf.1).2.1 (intW_facts w hwf.1).2.2.1
      (giveBits_length order (toWord x) w) hb (by simpa only [valBits] using hsh)
    refine ⟨.enum sgn w v, s', ?_, hb', hdisj⟩
    have hunf : desTy order (.enum sgn w) s
        = Except.bind (take order (w / 8) sgn w s)
          (fun q => .ok (.enum sgn w q.1, q.2)) := rfl
    simp only [tyOf]
    rw [hunf, ht, exBind_ok]
  | float w p =>
    intro hwf r F s hb hsh
    have hiw : intW w := by
      rcases hwf.1 with rfl | rfl | rfl <;> simp [intW]
    obtain ⟨v, s', ht, hb', hdisj⟩ := leaf_shaped order (w / 8) false w s
      (giveBits order (toWord p) w) F r
      (intW_facts w hiw).1 (intW_facts w hiw).2.1 (intW_facts w hiw).2.2.1
      (giveBits_length order (toWord p) w) hb (by simpa only [valBits] using hsh)
    refine ⟨.float w v.toNat, s', ?_, hb', hdisj⟩
    have hunf : desTy order (.float w) s
        = Except.bind (take order (w / 8) false w s)
          (fun q => .ok (.float w q.1.toNat, q.2)) := rfl
    simp only [tyOf]
    rw [hunf, ht, exBind_ok]
  | bits sgn tw w x =>
    intro hwf r F s hb hsh
    obtain ⟨htw, hw1, hw2, _⟩ := hwf
    have h8 := intW_facts tw htw
    obtain ⟨v, s', ht, hb', hdisj⟩ := leaf_shaped order (tw / 8) sgn w s
      (giveBits order (toWord x) w) F r
      (by omega) (by omega) (by omega)
      (giveBits_length order (toWord x) w) hb (by simpa only [valBits] using hsh)
    refine ⟨.bits sgn tw w v, s', ?_, hb', hdisj⟩
    have hunf : desTy order (.bits sgn tw w) s
        = Except.bind (take order (tw / 8) sgn w s)
          (fun q => .ok (.bits sgn tw w q.1, q.2)) := rfl
    simp only [tyOf]
    rw [hunf, ht, exBind_ok]
  | spare w =>
    intro hwf r F s hb hsh
    obtain ⟨hw1, hw2⟩ := hwf
    obtain ⟨v, s', ht, hb', hdisj⟩ := leaf_shaped order 8 false w s
      (giveBits order 0 w) F r
      (by omega) (by omega) (by omega)
      (giveBits_length order 0 w) hb (by simpa only [valBits] using hsh)
    refine ⟨.spare w, s', ?_, hb', hdisj⟩
    have hunf : desTy order (.spare w) s
        = Except.bind (take order 8 false w s)
          (fun q => .ok (.spare w, q.2)) := rfl
    simp only [tyOf]
    rw [hunf, ht, exBind_ok]
  | vec τ es =>
    intro hwf r F s hb hsh
    obtain ⟨hlen, hwl, hty⟩ := hwf
    simp only [valBits] at hsh
    rw [List.append_assoc] at hsh
    have hGlen : (giveBits order (toWord (es.length : Int)) 64).length = 64 :=
      giveBits_length order _ 64
    have hlensum : (giveBits order (toWord (es.length : Int)) 64
        ++ (valListBits order es ++ F)).length
        = 64 + ((valListBits order es).length + F.length) := by
      rw [List.length_append, List.length_append, hGlen]
    simp only [tyOf]
    have hunf : desTy order (.vec τ) s
        = Except.bind (take order 8 false 64 s) (fun q =>
            Except.bind (desCountV (desTy order τ) q.1.toNat q.2)
              (fun q2 => .ok (.vec τ q2.1, q2.2))) := rfl
    by_cases hcase : 64 + r ≤ (giveBits order (toWord (es.length : Int)) 64
        ++ (valListBits order es ++ F)).length
    · -- the count is intact
      have h64 : 64 ≤ (remBits order s).length := by
        have := shaped_length _ _ _ hsh
        omega
      obtain ⟨s1, hc1, hb1, hr1⟩ := take_count order s hb h64
      have htk : (remBits order s).take 64
          = giveBits order (toWord (es.length : Int)) 64 := by
        rw [shaped_take r _ _ 64 hsh hcase, List.take_left' hGlen]
      have hval : pushBits order 0 ((remBits order s).take 64) = es.length := by
        rw [htk, show toWord (es.length : Int) = es.length from by
          rw [toWord_ofNat]; exact Nat.mod_eq_of_lt hlen]
        exact pushBits_giveBits order es.length hlen
      have hshd : Shaped r (valListBits order es ++ F) (remBits order s1) := by
        have hd := shaped_drop r _ _ 64 hsh hcase
        rw [List.drop_left' hGlen] at hd
        rw [hr1]
        exact hd
      obtain ⟨ws, s2, hel, hb2, hdisj⟩ := desElems_shaped order es τ hwl hty r F s1 hb1 hshd
      refine ⟨.vec τ ws, s2, ?_, hb2, hdisj⟩
      rw [hunf, hc1, exBind_ok, Int.toNat_ofNat, hval, hel, exBind_ok]
    · -- the count straddles the displaced tail
      rcases hsh with ⟨hr0, hrem⟩ | ⟨hr0, hr8, hrX, hrem⟩
      · exact absurd (by omega) hcase
      have hEFlt : (valListBits order es).length + F.length < r := by omega
      obtain ⟨n', s1, hcnt, hb1, hr1, hmsb, hlsb⟩ := count_straddle order es.length hlen
        (valListBits order es) F r hr0 hr8 hEFlt s hb hrem
      have hrlen : (remBits order s).length
          = (giveBits order (toWord (es.length : Int)) 64
              ++ (valListBits order es ++ F)).length + 8 - r := by
        rw [hrem, corrupt_length _ _ hrX hr8]
      have hfixl : fixedOkList (tyOfList es) :=
        small_fixedOkList order es hwl (by omega)
      have hwidth : (valListBits order es).length = es.length * tyWidth τ := by
        rw [valListBits_width_fields order es hwl hfixl, hty, tyWidthList_rep]
      have hcons : n' * tyWidth τ ≤ es.length * tyWidth τ := by
        cases order with
        | MsbFirst => exact Nat.mul_le_mul_right _ (hmsb rfl)
        | LsbFirst =>
          by_cases hwe : tyWidth τ = 0
          · rw [hwe]
            simp
          · have hle1 : es.length * 1 ≤ es.length * tyWidth τ :=
              Nat.mul_le_mul_left _ (by omega)
            have hc7 : es.length ≤ 7 := by omega
            rw [hlsb rfl (by omega)]
      by_cases hn' : n' = 0
      · subst hn'
        refine ⟨.vec τ .nil, s1, ?_, hb1, Or.inr ⟨by omega, ?_⟩⟩
        · rw [hunf, hcnt, exBind_ok, Int.toNat_ofNat]
          rfl
        · rw [hr1, List.length_drop]
          omega
      · have hc0 : 0 < es.length := by
          rcases Nat.eq_zero_or_pos es.length with h0 | h0
          · exfalso
            apply hn'
            cases order with
            | MsbFirst =>
              have := hmsb rfl
              omega
            | LsbFirst =>
              have := hlsb rfl (by rw [h0]; norm_num)
              omega
          · exact h0
        have hfτ : fixedOk τ := by
          cases es with
          | nil => simp [ValList.length] at hc0
          | cons e rest =>
            have h1 : tyOf e = τ := by
              rw [ValList.length] at hty
              simp only [tyOfList, repTyList] at hty
              injection hty
            rw [← h1]
            refine small_fixedOk order e hwl.1 ?_
            have h2 : (valListBits order (.cons e rest)).length
                = (valBits order e).length + (valListBits order rest).length := by
              rw [valListBits, List.length_append]
            omega
        obtain ⟨ws, s2, hdf, hb2, hr2⟩ := desFields_fixed order (repTyList τ n')
          (fixedOkList_rep τ n' hfτ) s1 hb1
          (by rw [tyWidthList_rep, hr1, List.length_drop]; omega)
        refine ⟨.vec τ ws, s2, ?_, hb2, Or.inr ⟨by omega, ?_⟩⟩
        · rw [hunf, hcnt, exBind_ok, Int.toNat_ofNat, desCountV_eq_desFields, hdf,
            exBind_ok]
        · rw [hr2, tyWidthList_rep, List.length_drop, hr1, List.length_drop]
          omega
  | arr τ es =>
    intro hwf r F s hb hsh
    simp only [valBits] at hsh
    obtain ⟨ws, s', hel, hb', hdisj⟩ := desElems_shaped order es τ hwf.1 hwf.2 r F s hb hsh
    refine ⟨.arr τ ws, s', ?_, hb', hdisj⟩
    have hunf : desTy order (.arr τ es.length) s
        = Except.bind (desCountV (desTy order τ) es.length s)
          (fun q => .ok (.arr τ q.1, q.2)) := rfl
    simp only [tyOf]
    rw [hunf, hel, exBind_ok]
  | struct f0 fs =>
    intro hwf r F s hb hsh
    simp only [valBits] at hsh
    rw [List.append_assoc] at hsh
    obtain ⟨w1, s1, h1, hb1, hd1⟩ := desTy_shaped order f0 hwf.1 r
      (valListBits order fs ++ F) s hb hsh
    have hunf : desTy order (.struct (tyOf f0) (tyOfList fs)) s
        = Except.bind (desTy order (tyOf f0) s) (fun q =>
            Except.bind (desFields order (tyOfList fs) q.2)
              (fun q2 => .ok (.struct q.1 q2.1, q2.2))) := rfl
    simp only [tyOf]
    rcases hd1 with ⟨hle, hsh1⟩ | ⟨hlt, hlen1⟩
    · obtain ⟨ws, s2, h2, hb2, hd2⟩ := desFields_shaped order fs hwf.2 r F s1 hb1 hsh1
      refine ⟨.struct w1 ws, s2, ?_, hb2, hd2⟩
      rw [hunf, h1, exBind_ok, h2, exBind_ok]
    · have hsm : (valListBits order fs).length < 64 := by
        rw [List.length_append] at hlt
        rcases hsh with ⟨h0, _⟩ | ⟨_, h8, _, _⟩ <;> omega
      have hfixl := small_fixedOkList order fs hwf.2 hsm
      have hwidth := valListBits_width_fields order fs hwf.2 hfixl
      obtain ⟨ws, s2, h2, hb2, hr2⟩ := desFields_fixed order (tyOfList fs) hfixl s1 hb1
        (by rw [← hwidth]; rw [List.length_append] at hlen1; omega)
      refine ⟨.struct w1 ws, s2, ?_, hb2, Or.inr ⟨?_, ?_⟩⟩
      · rw [hunf, h1, exBind_ok, h2, exBind_ok]
      · rw [List.length_append] at hlt
        omega
      · rw [hr2, List.length_drop, ← hwidth]
        rw [List.length_append] at hlt hlen1
        omega

theorem desFields_shaped (order : ByteOrder) (vs : ValList) : wfList vs →
    ∀ r F s, s.bitsLeft < 8 →
      Shaped r (valListBits order vs ++ F) (remBits order s) →
      ∃ ws s', desFields order (tyOfList vs) s = .ok (ws, s') ∧ s'.bitsLeft < 8 ∧
        ((r ≤ F.length ∧ Shaped r F (remBits order s'))
          ∨ (F.length < r ∧ F.length + (8 - r) ≤ (remBits order s').length)) := by
  cases vs with
  | nil =>
    intro _ r F s hb hsh
    simp only [valListBits, List.nil_append] at hsh
    refine ⟨.nil, s, rfl, hb, ?_⟩
    by_cases hc : r ≤ F.length
    · exact Or.inl ⟨hc, hsh⟩
    · rcases hsh with ⟨hr0, _⟩ | ⟨hr0, hr8, hrX, _⟩
      · omega
      · omega
  | cons v rest =>
    intro hwf r F s hb hsh
    simp only [valListBits] at hsh
    rw [List.append_assoc] at hsh
    obtain ⟨w1, s1, h1, hb1, hd1⟩ := desTy_shaped order v hwf.1 r
      (valListBits order rest ++ F) s hb hsh
    have hunf : desFields order (tyOfList (.cons v rest)) s
        = Except.bind (desTy order (tyOf v) s) (fun q =>
            Except.bind (desFields order (tyOfList rest) q.2)
              (fun q2 => .ok (.cons q.1 q2.1, q2.2))) := rfl
    rcases hd1 with ⟨hle, hsh1⟩ | ⟨hlt, hlen1⟩
    · obtain ⟨ws, s2, h2, hb2, hd2⟩ := desFields_shaped order rest hwf.2 r F s1 hb1 hsh1
      refine ⟨.cons w1 ws, s2, ?_, hb2, hd2⟩
      rw [hunf, h1, exBind_ok, h2, exBind_ok]
    · have hsm : (valListBits order rest).length < 64 := by
        rw [List.length_append] at hlt
        rcases hsh with ⟨h0, _⟩ | ⟨_, h8, _, _⟩ <;> omega
      have hfixl := small_fixedOkList order rest hwf.2 hsm
      have hwidth := valListBits_width_fields order rest hwf.2 hfixl
      obtain ⟨ws, s2, h2, hb2, hr2⟩ := desFields_fixed order (tyOfList rest) hfixl s1 hb1
        (by rw [← hwidth]; rw [List.length_append] at hlen1; omega)
      refine ⟨.cons w1 ws, s2, ?_, hb2, Or.inr ⟨?_, ?_⟩⟩
      · rw [hunf, h1, exBind_ok, h2, exBind_ok]
      · rw [List.length_append] at hlt
        omega
      · rw [hr2, List.length_drop, ← hwidth]
        rw [List.length_append] at hlt hlen1
        omega

theorem desElems_shaped (order : ByteOrder) (es : ValList) : ∀ (τ : Ty), wfList es →
    tyOfList es = repTyList τ es.length →
    ∀ r F s, s.bitsLeft < 8 →
      Shaped r (valListBits order es ++ F) (remBits order s) →
      ∃ ws s', desCountV (desTy order τ) es.length s = .ok (ws, s') ∧ s'.bitsLeft < 8 ∧
        ((r ≤ F.length ∧ Shaped r F (remBits order s'))
          ∨ (F.length < r ∧ F.length + (8 - r) ≤ (remBits order s').length)) := by
  cases es with
  | nil =>
    intro τ _ _ r F s hb hsh
    simp only [valListBits, List.nil_append] at hsh
    refine ⟨.nil, s, rfl, hb, ?_⟩
    by_cases hc : r ≤ F.length
    · exact Or.inl ⟨hc, hsh⟩
    · rcases hsh with ⟨hr0, _⟩ | ⟨hr0, hr8, hrX, _⟩
      · omega
      · omega
  | cons e rest =>
    intro τ hwl hty r F s hb hsh
    have hinj1 : tyOf e = τ := by
      rw [ValList.length] at hty
      simp only [tyOfList, repTyList] at hty
      injection hty
    have hinj2 : tyOfList rest = repTyList τ rest.length := by
      rw [ValList.length] at hty
      simp only [tyOfList, repTyList] at hty
      injection hty
    simp only [valListBits] at hsh
    rw [List.append_assoc] at hsh
    obtain ⟨w1, s1, h1, hb1, hd1⟩ := desTy_shaped order e hwl.1 r
      (valListBits order rest ++ F) s hb hsh
    rw [hinj1] at h1
    have hunf : desCountV (desTy order τ) ((ValList.cons e rest).length) s
        = Except.bind (desTy order τ s) (fun q =>
            Except.bind (desCountV (desTy order τ) rest.length q.2)
              (fun q2 => .ok (.cons q.1 q2.1, q2.2))) := rfl
    rcases hd1 with ⟨hle, hsh1⟩ | ⟨hlt, hlen1⟩
    · obtain ⟨ws, s2, h2, hb2, hd2⟩ := desElems_shaped order rest τ hwl.2 hinj2 r F s1 hb1 hsh1
      refine ⟨.cons w1 ws, s2, ?_, hb2, hd2⟩
      rw [hunf, h1, exBind_ok, h2, exBind_ok]
    · have hsm : (valListBits order rest).length < 64 := by
        rw [List.length_append] at hlt
        rcases hsh with ⟨h0, _⟩ | ⟨_, h8, _, _⟩ <;> omega
      have hfixl := small_fixedOkList order rest hwl.2 hsm
      have hwidth := valListBits_width_fields order rest hwl.2 hfixl
      obtain ⟨ws, s2, h2, hb2, hr2⟩ := desFields_fixed order (tyOfList rest) hfixl s1 hb1
        (by rw [← hwidth]; rw [List.length_append] at hlen1; omega)
      refine ⟨.cons w1 ws, s2, ?_, hb2, Or.inr ⟨?_, ?_⟩⟩
      · rw [hunf, h1, exBind_ok, desCountV_eq_desFields, ← hinj2, h2, exBind_ok]
      · rw [List.length_append] at hlt
        omega
      · rw [hr2, List.length_drop, ← hwidth]
        rw [List.length_append] at hlt hlen1
        omega
end

/-- C10: decoding ignores surplus trailing input.  For every well-formed
value `v`, byte order, and arbitrary byte suffix `extra`: the bytes
`serialize` produces decode without error; decoding them with `extra`
appended succeeds and yields the same value; and the decoder never consumes
bytes beyond those its bit requests require — the final state of the
extended run holds exactly the plain run's unread input with all of `extra`
still appended, untouched. -/
theorem c10_surplus_input (order : ByteOrder) (v : Val) (extra : List Nat)
    (h : wfVal v) :
    ∃ bs w s₁, serialize v order = .ok bs ∧
      desTy order (tyOf v) (.init bs) = .ok (w, s₁) ∧
      desTy order (tyOf v) (.init (bs ++ extra)) = .ok (w, s₁.addInput extra) ∧
      deserialize (tyOf v) bs order = .ok w ∧
      deserialize (tyOf v) (bs ++ extra) order = .ok w := by
  obtain ⟨bs, hser, hshape⟩ := serialize_stream order v h
  have hrem : remBits order (.init bs) = unpack order bs := by
    rw [show (DecState.init bs) = (⟨0, 0, bs⟩ : DecState) from rfl, remBits,
      decPending_zero, List.nil_append]
  have hsh : Shaped ((valBits order v).length % 8) (valBits order v ++ [])
      (remBits order (.init bs)) := by
    rw [List.append_nil, hrem]
    rcases hshape with ⟨hmod, hunp⟩ | ⟨hmod, hunp⟩
    · exact Or.inl ⟨hmod, hunp⟩
    · refine Or.inr ⟨by omega, Nat.mod_lt _ (by norm_num), Nat.mod_le _ _, ?_⟩
      rw [hunp, corrupt]
  obtain ⟨w, s₁, hdes, hb₁, _⟩ := desTy_shaped order v h
    ((valBits order v).length % 8) [] (.init bs)
    (by show (0 : Nat) < 8; norm_num) hsh
  have hmono := desTy_mono order (tyOf v) (.init bs) (w, s₁) extra hdes
  have hinit : (DecState.init bs).addInput extra = DecState.init (bs ++ extra) := rfl
  rw [hinit] at hmono
  refine ⟨bs, w, s₁, hser, hdes, hmono, ?_, ?_⟩
  · have hunf : deserialize (tyOf v) bs order
        = Except.bind (desTy order (tyOf v) (.init bs)) (fun p => .ok p.1) := rfl
    rw [hunf, hdes, exBind_ok]
  · have hunf : deserialize (tyOf v) (bs ++ extra) order
        = Except.bind (desTy order (tyOf v) (.init (bs ++ extra)))
          (fun p => .ok p.1) := rfl
    rw [hunf, hmono, exBind_ok]

/-- Witness for `c10_surplus_input`: the unaligned 4-bit bit-field value
(whose serialized stream ends flush-displaced) with one surplus byte. -/
theorem c10_surplus_input_witness :
    wfVal (Val.bits false 8 4 15) ∧
    ∃ bs w s₁, serialize (Val.bits false 8 4 15) .MsbFirst = .ok bs ∧
      desTy .MsbFirst (tyOf (Val.bits false 8 4 15)) (.init bs) = .ok (w, s₁) ∧
      desTy .MsbFirst (tyOf (Val.bits false 8 4 15)) (.init (bs ++ [171]))
        = .ok (w, s₁.addInput [171]) ∧
      deserialize (tyOf (Val.bits false 8 4 15)) bs .MsbFirst = .ok w ∧
      deserialize (tyOf (Val.bits false 8 4 15)) (bs ++ [171]) .MsbFirst = .ok w := by
  have hwf : wfVal (Val.bits false 8 4 15) := by
    refine ⟨Or.inl rfl, by norm_num, by norm_num, ?_⟩
    norm_num [inRange]
  exact ⟨hwf, c10_surplus_input .MsbFirst (Val.bits false 8 4 15) [171] hwf⟩


end Pyxi
